import Mathlib

/-!
A shallow embedding of the `rj` JSON library (src/src/lib.rs, src/src/value.rs,
src/src/generate.rs) and proofs about it.

Conventions of the embedding:
* Rust `&str` slices become `List Char` (a Rust string is a sequence of Unicode
  scalar values; slicing at a character's byte length is exactly dropping that
  character from the list, so the source's byte-position arithmetic becomes
  list structure).
* Every Rust panic becomes an `Except` error with one constructor per distinct
  panic site, so error conditions stay distinguishable.
* `f64` values are modelled exactly: a finite double is `m * 2 ^ e` with `m e : Int`
  (the rounding functions below produce `m` odd — or zero with `e = 0` — so each
  double has one representation; IEEE signed zero is collapsed to `0`, which `==`
  on `f64` cannot distinguish anyway).
* The mutually recursive descent functions take a fuel argument (first), with
  `.error .outOfFuel` on exhaustion; `parse` passes fuel `2 * length + 4`,
  which the development shows is never exhausted on the inputs it reasons about.
* `HashMap<String, Value>` becomes an association list with `insertKV`
  (overwrite-in-place on an existing key, append otherwise) and iteration in
  insertion order: a deterministic model of the map's unspecified order.
-/

namespace RJ

/-- Char set of Rust's `char::is_whitespace` (the Unicode `White_Space` property),
used by `eat_whitespace` in src/src/lib.rs. -/
def isRustWs (c : Char) : Bool :=
  let n := c.toNat
  n = 0x9 ∨ n = 0xA ∨ n = 0xB ∨ n = 0xC ∨ n = 0xD ∨ n = 0x20 ∨ n = 0x85 ∨
  n = 0xA0 ∨ n = 0x1680 ∨ (0x2000 ≤ n ∧ n ≤ 0x200A) ∨ n = 0x2028 ∨ n = 0x2029 ∨
  n = 0x202F ∨ n = 0x205F ∨ n = 0x3000

/-- `eat_whitespace` (src/src/lib.rs:57): advances over leading characters with
`char::is_whitespace`; advancing the byte position by each such character's UTF-8
length and re-slicing is exactly dropping those characters. -/
def eat_whitespace (input : List Char) : List Char := input.dropWhile isRustWs

/-- The `Value` enum (src/src/lib.rs:5 and src/src/value.rs:3): the tagged union
over the six JSON variants. `Number` carries the `f64` model below. -/
inductive F64 where
  | finite (m : Int) (e : Int)
  | inf
  | negInf
  | nan
deriving DecidableEq

inductive Value where
  | String (s : String)
  | Number (x : F64)
  | Boolean (b : Bool)
  | Null
  | Object (members : List (String × Value))
  | Array (elements : List Value)

/-! ### The binary64 model

Rust's `str::parse::<f64>()` (used by `number`) is std-library code outside this
repository: per the spec, the numeral "is parsed as a 64-bit float" with
standard float-parsing behavior — a correctly rounded (nearest, ties to even)
conversion of the exact decimal value, saturating to infinity past the largest
double. The functions below implement that conversion with exact integer
arithmetic. -/

/-- Fueled binary logarithm; `natLog2 n = Nat.log 2 n` (proved below), i.e. the
index of the highest set bit for `n ≥ 1`. -/
def log2Aux : Nat → Nat → Nat
  | 0, _ => 0
  | f + 1, n => if n ≤ 1 then 0 else log2Aux f (n / 2) + 1

def natLog2 (n : Nat) : Nat := log2Aux n n

/-- Round `num / den` (with `den > 0`) to the nearest integer, ties to even. -/
def rne (num den : Nat) : Nat :=
  let q := num / den
  let r := num % den
  if 2 * r < den then q
  else if den < 2 * r then q + 1
  else if q % 2 = 0 then q else q + 1

/-- `⌊log₂ (num / den)⌋` for positive `num den`, by integer arithmetic. -/
def floorLog2F (num den : Nat) : Int :=
  if den ≤ num then (natLog2 (num / den) : Int)
  else
    let k := natLog2 (den / num)
    if num * 2 ^ k = den then -(k : Int) else -(k : Int) - 1

/-- Strip factors of two from `m` into the exponent, canonicalising `m * 2 ^ e`
(fueled; any fuel above the two-adic valuation of `m` gives the odd form). -/
def oddify : Nat → Nat → Int → Nat × Int
  | 0, m, e => (m, e)
  | f + 1, m, e => if m % 2 = 0 ∧ m ≠ 0 then oddify f (m / 2) (e + 1) else (m, e)

/-- Round the magnitude `num / den` (`den > 0`) to binary64: `none` on overflow
to infinity, otherwise the canonical `(m, e)` with value `m * 2 ^ e` (`m` odd,
or `(0, 0)`). Values of at least `2 ^ 1024 - 2 ^ 970` round (with unbounded
exponent) to at least `2 ^ 1024` and overflow; below that the rounding grid at
`2 ^ (⌊log₂⌋ - 52)`, floored at the subnormal step `2 ^ (-1074)`, applies. -/
def roundMag (num den : Nat) : Option (Nat × Int) :=
  if num = 0 then some (0, 0)
  else if (2 ^ 1024 - 2 ^ 970) * den ≤ num then none
  else
    let e := floorLog2F num den
    let u := max (e - 52) (-1074)
    let n :=
      if 0 ≤ u then rne num (den * 2 ^ u.toNat)
      else rne (num * 2 ^ (-u).toNat) den
    if n = 0 then some (0, 0) else some (oddify (n + 1) n u)

/-- The correctly rounded double of the exact decimal value `D * 10 ^ E`. -/
def roundDec (D : Int) (E : Int) : F64 :=
  let r :=
    if 0 ≤ E then roundMag (D.natAbs * 10 ^ E.toNat) 1
    else roundMag D.natAbs (10 ^ (-E).toNat)
  match r with
  | none => if D < 0 then .negInf else .inf
  | some (m, e) => .finite (if D < 0 then -(m : Int) else (m : Int)) e

/-- `* -1.0` on an `f64` (src/src/lib.rs:245): exact negation. -/
def f64Neg : F64 → F64
  | .finite m e => .finite (-m) e
  | .inf => .negInf
  | .negInf => .inf
  | .nan => .nan

/-- IEEE `==` on doubles (`PartialEq` for `f64`): equality of values, `NaN`
unequal to everything including itself. -/
def f64Eq : F64 → F64 → Bool
  | .finite m1 e1, .finite m2 e2 =>
    if e1 ≤ e2 then m1 == m2 * 2 ^ (e2 - e1).toNat else m1 * 2 ^ (e1 - e2).toNat == m2
  | .inf, .inf => true
  | .negInf, .negInf => true
  | _, _ => false

/-- Digit-run value, as `number`'s model needs it (`fold` over base 10). -/
def digitsVal (ds : List Char) : Nat :=
  ds.foldl (fun a c => a * 10 + (c.toNat - '0'.toNat)) 0

/-- Rust's `str::parse::<f64>()` grammar on the runs `number` accumulates:
an optional sign, decimal digits with at most one point (at least one digit),
and an optional exponent `e`/`E` with optional sign and mandatory digits; the
whole string must be consumed. (`FromStr` also accepts the keywords `inf`,
`infinity` and `NaN`, which cannot occur here: `number` only ever feeds this
function digits, `.`, `e` and `E`.) The accepted numeral converts by correct
rounding via `roundDec`; `splitSign` and `splitFrac` below are its sign and
fraction steps. -/
def splitSign (s : List Char) : Bool × List Char :=
  match s with
  | '+' :: t => (false, t)
  | '-' :: t => (true, t)
  | _ => (false, s)

/-- The optional fraction: a point followed by its digit run, or nothing. -/
def splitFrac (s2 : List Char) : List Char × List Char :=
  match s2 with
  | '.' :: t => (t.takeWhile Char.isDigit, t.dropWhile Char.isDigit)
  | _ => ([], s2)

/-- See the comment above `splitSign`: the `FromStr` numeral grammar with
correctly rounded conversion. -/
def rustParseF64 (s : List Char) : Option F64 :=
  let p1 := splitSign s
  let intDs := p1.2.takeWhile Char.isDigit
  let s2 := p1.2.dropWhile Char.isDigit
  let p2 := splitFrac s2
  let fracDs := p2.1
  let s3 := p2.2
  if intDs.isEmpty ∧ fracDs.isEmpty then none
  else
    let mantissa : Int := (digitsVal (intDs ++ fracDs) : Int)
    let D := if p1.1 then -mantissa else mantissa
    match s3 with
    | [] => some (roundDec D (-(fracDs.length : Int)))
    | e :: t =>
      if e = 'e' ∨ e = 'E' then
        let p3 := splitSign t
        let eDs := p3.2.takeWhile Char.isDigit
        let t2 := p3.2.dropWhile Char.isDigit
        if eDs.isEmpty ∨ ¬t2.isEmpty then none
        else
          let ex : Int := if p3.1 then -(digitsVal eDs : Int) else (digitsVal eDs : Int)
          some (roundDec D (ex - (fracDs.length : Int)))
      else none

/-! ### The parser (src/src/lib.rs) -/

/-- One error constructor per panic site of the source (and `outOfFuel` for the
embedding's fuel, which `parse`'s choice of fuel never reaches). -/
inductive ParseErr where
  | outOfFuel
  | unexpectedToken
  | trailingContent
  | expectedObjectBrace
  | expectedColon
  | expectedCommaOrBrace
  | expectedArrayBracket
  | expectedCloseBracket
  | expectedQuote
  | stringStart
  | unterminatedString
  | invalidEscape
  | invalidUnicodeEscape
  | invalidHexDigit
  | invalidScalar
  | unescapedControl
  | numberUnwrap
deriving DecidableEq

/-- `char::to_digit(16)` of the source's unicode-escape reader. -/
def toDigit16 (c : Char) : Option Nat :=
  if '0' ≤ c ∧ c ≤ '9' then some (c.toNat - '0'.toNat)
  else if 'a' ≤ c ∧ c ≤ 'f' then some (c.toNat - 'a'.toNat + 10)
  else if 'A' ≤ c ∧ c ≤ 'F' then some (c.toNat - 'A'.toNat + 10)
  else none

/-- `char::from_u32`: `some` exactly on Unicode scalar values (rejecting the
surrogate range `0xD800…0xDFFF` and anything above `0x10FFFF`). -/
def charFromU32 (n : Nat) : Option Char :=
  if n < 0xD800 ∨ (0xE000 ≤ n ∧ n < 0x110000) then some (Char.ofNat n) else none

/-- The `uXXXX` arm of `string` (src/src/lib.rs:179): read exactly four
characters, failing on a quote or end of input (`invalidUnicodeEscape`) or on a
non-hex character (`invalidHexDigit`), accumulating `(hex_val << 4) | digit`. -/
def readHexDigits : Nat → List Char → Nat → Except ParseErr (Nat × List Char)
  | 0, rest, acc => .ok (acc, rest)
  | k + 1, input, acc =>
    match input with
    | [] => .error .invalidUnicodeEscape
    | c :: rest =>
      if c = '"' then .error .invalidUnicodeEscape
      else
        match toDigit16 c with
        | some d => readHexDigits k rest (acc * 16 + d)
        | none => .error .invalidHexDigit

/-- The character loop of `string` (src/src/lib.rs:152), over the characters
after the opening quote: close on `"`, decode escapes after `\`, reject
unescaped `\n`/`\r`/`\t`, push anything else. Fueled; each step consumes at
least one character, so fuel above the input length never runs out. -/
def stringLoop : Nat → List Char → String → Except ParseErr (String × List Char)
  | 0, _, _ => .error .outOfFuel
  | fuel + 1, input, acc =>
    match input with
    | [] => .error .unterminatedString
    | c :: rest =>
      if c = '"' then .ok (acc, rest)
      else if c = '\\' then
        match rest with
        | [] => .error .invalidEscape
        | e :: rest2 =>
          if e = '"' then stringLoop fuel rest2 (acc.push '"')
          else if e = '\\' then stringLoop fuel rest2 (acc.push '\\')
          else if e = '/' then stringLoop fuel rest2 (acc.push '/')
          else if e = 'b' then stringLoop fuel rest2 (acc.push (Char.ofNat 0x08))
          else if e = 'f' then stringLoop fuel rest2 (acc.push (Char.ofNat 0x0C))
          else if e = 'n' then stringLoop fuel rest2 (acc.push '\n')
          else if e = 'r' then stringLoop fuel rest2 (acc.push '\r')
          else if e = 't' then stringLoop fuel rest2 (acc.push '\t')
          else if e = 'u' then
            match readHexDigits 4 rest2 0 with
            | .error err => .error err
            | .ok (n, rest3) =>
              match charFromU32 n with
              | some ch => stringLoop fuel rest3 (acc.push ch)
              | none => .error .invalidScalar
          else .error .invalidEscape
      else if c = '\n' ∨ c = '\r' ∨ c = '\t' then .error .unescapedControl
      else stringLoop fuel rest (acc.push c)

/-- `string` (src/src/lib.rs:129). Faithful to the source's three stages:
strip whitespace and the opening quote (else the `expect` fails); if the next
character after more whitespace is a quote, return the empty string (the
source's fast path — note it skips that interior whitespace); otherwise restart
from the *raw* `input` via `char_indices`, demanding a quote first (on a
nonempty raw input that still has leading whitespace this stage fails), then
run the character loop. -/
def string (input : List Char) : Except ParseErr (String × List Char) :=
  match eat_whitespace input with
  | '"' :: cur =>
    (match eat_whitespace cur with
     | '"' :: rest => .ok ("", rest)
     | _ =>
       match input with
       | [] => .error .stringStart
       | c :: rest0 =>
         if c = '"' then stringLoop (rest0.length + 1) rest0 "" else .error .stringStart)
  | _ => .error .expectedQuote

/-- The character class `number` accumulates (src/src/lib.rs:234): decimal
digits, `.`, `e`, `E` — note no sign. -/
def numChar (c : Char) : Bool := c.isDigit ∨ c = '.' ∨ c = 'e' ∨ c = 'E'

/-- `number` (src/src/lib.rs:223): strip whitespace, then an optional `-`, then
take the maximal run of `numChar` characters as `buf` (the `strip_prefix(&buf)`
always succeeds since `buf` was taken from the front); `buf.parse::<f64>()`
(`rustParseF64`) with `unwrap` panicking (`numberUnwrap`) on its failure, and
`* -1.0` applied afterwards when the minus was present. -/
def number (input : List Char) : Except ParseErr (F64 × List Char) :=
  let cur0 := eat_whitespace input
  let p : Bool × List Char :=
    match cur0 with
    | '-' :: rest => (true, rest)
    | _ => (false, cur0)
  let buf := p.2.takeWhile numChar
  let rest := p.2.dropWhile numChar
  match rustParseF64 buf with
  | none => .error .numberUnwrap
  | some v => .ok (if p.1 then f64Neg v else v, rest)

/-- `HashMap::insert` on the association-list model: overwrite in place when the
key exists (last write wins), append otherwise. -/
def insertKV : List (String × Value) → String → Value → List (String × Value)
  | [], k, v => [(k, v)]
  | (k0, v0) :: rest, k, v =>
    if k0 = k then (k0, v) :: rest else (k0, v0) :: insertKV rest k v

/-- `HashMap::get` on the association-list model. -/
def getKV : List (String × Value) → String → Option Value
  | [], _ => none
  | (k0, v0) :: rest, k => if k0 = k then some v0 else getKV rest k

mutual
/-- `value` (src/src/lib.rs:25): strip whitespace, then dispatch in source
order — the literal prefixes `false`, `null`, `true`, then `{` / `[` / `"`,
then `-` or an ASCII digit for a number; anything else (including the empty
input) is the `Unexpected token` panic. -/
def value : Nat → List Char → Except ParseErr (Value × List Char)
  | 0, _ => .error .outOfFuel
  | fuel + 1, input0 =>
    match eat_whitespace input0 with
    | 'f' :: 'a' :: 'l' :: 's' :: 'e' :: rest => .ok (.Boolean false, rest)
    | 'n' :: 'u' :: 'l' :: 'l' :: rest => .ok (.Null, rest)
    | 't' :: 'r' :: 'u' :: 'e' :: rest => .ok (.Boolean true, rest)
    | c :: rest =>
      if c = '{' then
        match object fuel (c :: rest) with
        | .ok (obj, r) => .ok (.Object obj, r)
        | .error e => .error e
      else if c = '[' then
        match array fuel (c :: rest) with
        | .ok (arr, r) => .ok (.Array arr, r)
        | .error e => .error e
      else if c = '"' then
        match string (c :: rest) with
        | .ok (s, r) => .ok (.String s, r)
        | .error e => .error e
      else if c = '-' ∨ c.isDigit then
        match number (c :: rest) with
        | .ok (x, r) => .ok (.Number x, r)
        | .error e => .error e
      else .error .unexpectedToken
    | [] => .error .unexpectedToken

/-- `object` (src/src/lib.rs:68): expect `{` after whitespace; an immediate `}`
(after whitespace) yields the empty map, else the member loop starts on the
suffix just past `{`. -/
def object : Nat → List Char → Except ParseErr (List (String × Value) × List Char)
  | 0, _ => .error .outOfFuel
  | fuel + 1, input =>
    match eat_whitespace input with
    | '{' :: cur =>
      (match eat_whitespace cur with
       | '}' :: rest => .ok ([], rest)
       | _ => objLoop fuel cur [])
    | _ => .error .expectedObjectBrace

/-- The member loop of `object` (src/src/lib.rs:78): parse a key string, expect
`:`, parse a value, insert, then continue on `,` or stop on `}`; anything else
is the `Expected ',' or '}'` panic, a missing colon the `Expected ':'` panic. -/
def objLoop : Nat → List Char → List (String × Value) →
    Except ParseErr (List (String × Value) × List Char)
  | 0, _, _ => .error .outOfFuel
  | fuel + 1, cur, acc =>
    match string (eat_whitespace cur) with
    | .error e => .error e
    | .ok (key, rest) =>
      match eat_whitespace rest with
      | ':' :: cur2 =>
        (match value fuel cur2 with
         | .error e => .error e
         | .ok (val, rest2) =>
           match eat_whitespace rest2 with
           | ',' :: r => objLoop fuel r (insertKV acc key val)
           | '}' :: r => .ok (insertKV acc key val, r)
           | _ => .error .expectedCommaOrBrace)
      | _ => .error .expectedColon

/-- `array` (src/src/lib.rs:102): expect `[` after whitespace; an immediate `]`
yields the empty array, else parse the first element and enter the comma loop. -/
def array : Nat → List Char → Except ParseErr (List Value × List Char)
  | 0, _ => .error .outOfFuel
  | fuel + 1, input =>
    match eat_whitespace input with
    | '[' :: cur =>
      (match eat_whitespace cur with
       | ']' :: rest => .ok ([], rest)
       | _ =>
         match value fuel cur with
         | .error e => .error e
         | .ok (v, rest) => arrLoop fuel rest [v])
    | _ => .error .expectedArrayBracket

/-- The element loop of `array` (src/src/lib.rs:116): while a `,` follows, parse
one more element; then the closing `]` is demanded (its `expect` panic is
`expectedCloseBracket`). -/
def arrLoop : Nat → List Char → List Value → Except ParseErr (List Value × List Char)
  | 0, _, _ => .error .outOfFuel
  | fuel + 1, cur, acc =>
    match eat_whitespace cur with
    | ',' :: r =>
      (match value fuel r with
       | .error e => .error e
       | .ok (v, rest) => arrLoop fuel rest (acc ++ [v]))
    | ']' :: r => .ok (acc, r)
    | _ => .error .expectedCloseBracket
end

/-- `parse` (src/src/lib.rs:15): the top-level value, then only whitespace may
remain (else the `Unexpected characters after JSON value` panic). -/
def parse (input : List Char) : Except ParseErr Value :=
  match value (2 * input.length + 4) input with
  | .error e => .error e
  | .ok (v, rest) =>
    if (eat_whitespace rest).isEmpty then .ok v else .error .trailingContent

/-! ### Indexing (src/src/value.rs) -/

/-- The three distinct panic conditions of the `Index` impls: the wrong-variant
panics of src/src/value.rs, `HashMap`'s key-not-found panic, and the slice
out-of-bounds panic. -/
inductive IndexErr where
  | typeMismatch
  | keyNotFound
  | outOfBounds
deriving DecidableEq

/-- `Index<&str> for Value` (src/src/value.rs:13): only an `Object` may be
indexed by a string (`typeMismatch` models the `&str index only allowed for
Value::Object` panic); on an `Object`, `HashMap`'s own indexing panics on a
missing key (`keyNotFound`). -/
def indexStr (v : Value) (key : String) : Except IndexErr Value :=
  match v with
  | .Object obj =>
    (match getKV obj key with
     | some x => .ok x
     | none => .error .keyNotFound)
  | _ => .error .typeMismatch

/-- `Index<usize> for Value` (src/src/value.rs:25): only an `Array` may be
indexed by a position; on an `Array`, slice indexing panics out of bounds. -/
def indexNat (v : Value) (i : Nat) : Except IndexErr Value :=
  match v with
  | .Array arr =>
    (match arr[i]? with
     | some x => .ok x
     | none => .error .outOfBounds)
  | _ => .error .typeMismatch

/-! ### The serializer (src/src/generate.rs) -/

/-- Decimal digit characters of `n`, most significant first (fueled; fuel `n + 1`
always exceeds the number of digits). -/
def natDecAux : Nat → Nat → List Char → List Char
  | 0, _, acc => acc
  | f + 1, n, acc =>
    if n < 10 then Char.ofNat ('0'.toNat + n) :: acc
    else natDecAux f (n / 10) (Char.ofNat ('0'.toNat + n % 10) :: acc)

def natDecimal (n : Nat) : List Char := natDecAux (n + 1) n []

def stripZeros (ds : List Char) : List Char :=
  (ds.reverse.dropWhile (fun c => c = '0')).reverse

def padZeros (w : Nat) (ds : List Char) : List Char :=
  List.replicate (w - ds.length) '0' ++ ds

/-- The `"{x}"` / `to_string()` rendering of an `f64`. Rust's `Display` prints
a decimal spelling of the exact value in positional notation (the shortest one
that parses back to the same double); that algorithm is std-library code, so we
model it by the exact decimal expansion — also positional, also a spelling that
parses back to the same double, which is all the serializer's contracts use.
A finite `m * 2 ^ e` with `e < 0` equals `m * 5 ^ (-e) / 10 ^ (-e)` exactly, so
the fractional digits (trailing zeros stripped) are finite. Infinities print
`inf`/`-inf` and `NaN` prints `NaN`, as in Rust. -/
def f64Display : F64 → List Char
  | .nan => "NaN".data
  | .inf => "inf".data
  | .negInf => "-inf".data
  | .finite m e =>
    (if m < 0 then ['-'] else []) ++
    (if 0 ≤ e then natDecimal (m.natAbs * 2 ^ e.toNat)
     else
       let fl := (-e).toNat
       let M := m.natAbs * 5 ^ fl
       natDecimal (M / 10 ^ fl) ++
         (if M % 10 ^ fl = 0 then []
          else '.' :: stripZeros (padZeros fl (natDecimal (M % 10 ^ fl)))))

mutual
/-- `impl Display for Value` (src/src/generate.rs:3), the compact form: strings
re-quoted verbatim (no re-escaping), numbers via `f64Display`, object members
`"key":value` joined by `,` (the key is printed through the `Value::String`
arm, hence the quotes), array elements joined by `,`. -/
def displayChars : Value → List Char
  | .String s => '"' :: (s.data ++ ['"'])
  | .Number x => f64Display x
  | .Boolean b => if b then "true".data else "false".data
  | .Null => "null".data
  | .Object obj => '{' :: (displayMembers obj ++ ['}'])
  | .Array arr => '[' :: (displayElems arr ++ [']'])

/-- The members of an object in compact form, comma-joined. -/
def displayMembers : List (String × Value) → List Char
  | [] => []
  | [(k, v)] => '"' :: (k.data ++ ['"']) ++ ':' :: displayChars v
  | (k, v) :: rest =>
    '"' :: (k.data ++ ['"']) ++ ':' :: displayChars v ++ ',' :: displayMembers rest

/-- The elements of an array in compact form, comma-joined. -/
def displayElems : List Value → List Char
  | [] => []
  | [v] => displayChars v
  | v :: rest => displayChars v ++ ',' :: displayElems rest
end

def spaces (n : Nat) : String := String.mk (List.replicate n ' ')

mutual
/-- `format` (src/src/generate.rs:36), the pretty form. Scalars as in the
compact form. A container renders `"{\n" ++ indent spaces ++ members ++ "\n" ++
(indent - 2) spaces ++ "}"` — and `indent - 2` is a `usize` subtraction, which
for `indent < 2` fails (overflow panic in a debug build; in release the wrapped
length makes `" ".repeat` abort on capacity overflow), modelled as `none`.
Members and elements are joined by `",\n"` plus `indent` spaces, each child
rendered at `indent + 2`; an empty container renders with the newline and
indentation but no members. -/
def format : Value → Nat → Option String
  | .String s, _ => some ("\"" ++ s ++ "\"")
  | .Number x, _ => some (String.mk (f64Display x))
  | .Boolean b, _ => some (if b then "true" else "false")
  | .Null, _ => some "null"
  | .Object obj, indent =>
    match formatMembers obj indent with
    | none => none
    | some body =>
      if indent < 2 then none
      else some ("\x7b\n" ++ spaces indent ++ body ++ "\n" ++ spaces (indent - 2) ++ "\x7d")
  | .Array arr, indent =>
    match formatElems arr indent with
    | none => none
    | some body =>
      if indent < 2 then none
      else some ("[\n" ++ spaces indent ++ body ++ "\n" ++ spaces (indent - 2) ++ "]")

/-- The member lines of `format`'s object arm: `"key": value`, separated by
`",\n"` and `indent` spaces (the source's `i < obj.len() - 1` separator test). -/
def formatMembers : List (String × Value) → Nat → Option String
  | [], _ => some ""
  | [(k, v)], indent =>
    (match format v (indent + 2) with
     | none => none
     | some s => some ("\"" ++ k ++ "\"" ++ ": " ++ s))
  | (k, v) :: rest, indent =>
    match format v (indent + 2) with
    | none => none
    | some s =>
      match formatMembers rest indent with
      | none => none
      | some r => some ("\"" ++ k ++ "\"" ++ ": " ++ s ++ ",\n" ++ spaces indent ++ r)

/-- The element lines of `format`'s array arm. -/
def formatElems : List Value → Nat → Option String
  | [], _ => some ""
  | [v], indent =>
    (match format v (indent + 2) with
     | none => none
     | some s => some s)
  | v :: rest, indent =>
    match format v (indent + 2) with
    | none => none
    | some s =>
      match formatElems rest indent with
      | none => none
      | some r => some (s ++ ",\n" ++ spaces indent ++ r)
end

/-! ### Structural equality (`PartialEq` for `Value`) -/

mutual
/-- Derived `PartialEq` on `Value`: same variant and equal payloads; `HashMap`
equality is size plus every left member found on the right with `==` values
(order-insensitive); `Vec` equality is position-wise; `f64` by `f64Eq`. -/
def valueEq : Value → Value → Bool
  | .String a, .String b => a == b
  | .Number a, .Number b => f64Eq a b
  | .Boolean a, .Boolean b => a == b
  | .Null, .Null => true
  | .Object a, .Object b => a.length == b.length && memsIncl a b
  | .Array a, .Array b => elemsEq a b
  | _, _ => false

/-- Every member of the first list maps, under the second, to an equal value. -/
def memsIncl : List (String × Value) → List (String × Value) → Bool
  | [], _ => true
  | (k, v) :: rest, b =>
    (match getKV b k with
     | some v2 => valueEq v v2
     | none => false) && memsIncl rest b

/-- Position-wise equality of element lists. -/
def elemsEq : List Value → List Value → Bool
  | [], [] => true
  | a :: as1, b :: bs => valueEq a b && elemsEq as1 bs
  | _, _ => false
end

end RJ

namespace RJ

set_option maxRecDepth 100000

/-! ### Auxiliary predicates for the theorems -/

mutual
/-- No `NaN` payload anywhere in the tree. -/
def noNaN : Value → Bool
  | .String _ => true
  | .Number x => x ≠ .nan
  | .Boolean _ => true
  | .Null => true
  | .Object obj => noNaNMems obj
  | .Array arr => noNaNElems arr

def noNaNMems : List (String × Value) → Bool
  | [] => true
  | (_, v) :: rest => noNaN v && noNaNMems rest

def noNaNElems : List Value → Bool
  | [] => true
  | v :: rest => noNaN v && noNaNElems rest
end

/-- The value of four hex digits, as `string`'s `uXXXX` reader folds them. -/
def hexQuadVal (c1 c2 c3 c4 : Char) : Option Nat :=
  match toDigit16 c1, toDigit16 c2, toDigit16 c3, toDigit16 c4 with
  | some d1, some d2, some d3, some d4 => some (((d1 * 16 + d2) * 16 + d3) * 16 + d4)
  | _, _, _, _ => none

/-! ### C1 -/

/-- C1: the claim reads `parse "10e-3" = 0.01`, with the exponent sign consumed.
In the source, `number`'s accumulation loop (src/src/lib.rs:234) breaks on `-`,
so `buf` is `"10e"`, whose `f64` parse has an exponent marker with no digits and
fails — the `unwrap` panics. The two signless cases of the claim do hold:
`parse "10e3"` is the double nearest `10000` (i.e. `10000.0`) and `parse "-10"`
is the negation of the double nearest `10`. This theorem evaluates the code at
all three inputs. -/
theorem c1_number_exponent_sign :
    parse "10e3".data = .ok (.Number (roundDec 10000 0)) ∧
    parse "-10".data = .ok (.Number (f64Neg (roundDec 10 0))) ∧
    parse "10e-3".data = .error .numberUnwrap :=
  ⟨rfl, rfl, rfl⟩

/-! ### C3 -/

/-- C3: the claim says interior whitespace is always part of a string payload,
and that the document quote-space-quote parses to `" "`. The source's
empty-string fast path (src/src/lib.rs:134) strips whitespace *inside* the
string before looking for the closing quote, so that document parses to the
empty string instead. (A string with any non-whitespace content keeps its
interior whitespace, as the second conjunct shows.) -/
theorem c3_string_interior_whitespace :
    parse ['"', ' ', '"'] = .ok (.String "") ∧
    ("" : String) ≠ " " ∧
    parse ['"', ' ', 'a', '"'] = .ok (.String " a") :=
  ⟨rfl, by decide, rfl⟩

/-! ### C7 -/

/-- C7 counterexample: the claim says `format` renders empty containers as
`{}` / `[]` with no interior newlines. The source (src/src/generate.rs:42)
has no zero-member special case: an empty object at indent 2 renders as an
opening brace, a newline, two spaces, a newline and the closing brace. -/
theorem c7_counterexample :
    format (.Object []) 2 = some "\x7b\n  \n\x7d" ∧
    format (.Array []) 2 = some "[\n  \n]" ∧
    ("\x7b\n  \n\x7d" : String) ≠ "\x7b\x7d" ∧
    ("[\n  \n]" : String) ≠ "[]" :=
  ⟨rfl, rfl, by decide, by decide⟩

/-- C7 as amended: at every indent of at least 2 (which is every indent a
nested occurrence can be rendered at, the top level conventionally starting
at 2), an empty object renders as `{`, newline, `indent` spaces, newline,
`indent - 2` spaces, `}` — with the interior newlines and indentation, not as
`{}` — and an empty array correspondingly. -/
theorem c7_empty_container_rendering : ∀ indent : Nat, 2 ≤ indent →
    format (.Object []) indent =
      some ("\x7b\n" ++ spaces indent ++ "\n" ++ spaces (indent - 2) ++ "\x7d") ∧
    format (.Array []) indent =
      some ("[\n" ++ spaces indent ++ "\n" ++ spaces (indent - 2) ++ "]") := by
  intro indent h
  constructor <;>
    · simp only [format, formatMembers, formatElems]
      rw [if_neg (by omega)]
      simp [String.append_empty]

/-- Witness for `c7_empty_container_rendering` at indent 2. -/
theorem c7_empty_container_rendering_witness :
    format (.Object []) 2 =
      some ("\x7b\n" ++ spaces 2 ++ "\n" ++ spaces 0 ++ "\x7d") :=
  (c7_empty_container_rendering 2 (by norm_num)).1

/-! ### C2 -/

/-- C2 counterexample: the claim says `format` is total for every indent,
including 0 and 1. `format`'s container arms compute `indent - 2` in `usize`
(src/src/generate.rs:56, 73), which for `indent < 2` fails (subtraction
overflow panic in a debug build, capacity overflow abort in release), so
formatting an empty object at indent 0 does not return a string. -/
theorem c2_counterexample : format (.Object []) 0 = none := rfl

mutual
/-- C2 as amended: `format v indent` returns a string for every `Value` and
every `indent ≥ 2` (children are rendered at `indent + 2`, so only a container
at top-level indent below 2 can reach the failing subtraction). -/
theorem c2_format_total : ∀ (v : Value) (indent : Nat), 2 ≤ indent →
    (format v indent).isSome = true
  | .String s, _, _ => rfl
  | .Number x, _, _ => rfl
  | .Boolean b, _, _ => rfl
  | .Null, _, _ => rfl
  | .Object obj, indent, h => by
    have hb := c2_format_members obj indent h
    obtain ⟨s, hs⟩ := Option.isSome_iff_exists.mp hb
    simp only [format, hs]
    rw [if_neg (by omega)]
    rfl
  | .Array arr, indent, h => by
    have hb := c2_format_elems arr indent h
    obtain ⟨s, hs⟩ := Option.isSome_iff_exists.mp hb
    simp only [format, hs]
    rw [if_neg (by omega)]
    rfl

theorem c2_format_members : ∀ (l : List (String × Value)) (indent : Nat), 2 ≤ indent →
    (formatMembers l indent).isSome = true
  | [], _, _ => rfl
  | [(k, v)], indent, h => by
    have h1 := c2_format_total v (indent + 2) (by omega)
    obtain ⟨s, hs⟩ := Option.isSome_iff_exists.mp h1
    simp [formatMembers, hs]
  | (k, v) :: (p :: rest), indent, h => by
    have h1 := c2_format_total v (indent + 2) (by omega)
    have h2 := c2_format_members (p :: rest) indent h
    obtain ⟨s, hs⟩ := Option.isSome_iff_exists.mp h1
    obtain ⟨r, hr⟩ := Option.isSome_iff_exists.mp h2
    simp [formatMembers, hs, hr]

theorem c2_format_elems : ∀ (l : List Value) (indent : Nat), 2 ≤ indent →
    (formatElems l indent).isSome = true
  | [], _, _ => rfl
  | [v], indent, h => by
    have h1 := c2_format_total v (indent + 2) (by omega)
    obtain ⟨s, hs⟩ := Option.isSome_iff_exists.mp h1
    simp [formatElems, hs]
  | v :: (p :: rest), indent, h => by
    have h1 := c2_format_total v (indent + 2) (by omega)
    have h2 := c2_format_elems (p :: rest) indent h
    obtain ⟨s, hs⟩ := Option.isSome_iff_exists.mp h1
    obtain ⟨r, hr⟩ := Option.isSome_iff_exists.mp h2
    simp [formatElems, hs, hr]
end

/-- Witness for `c2_format_total` on a tree with an empty object, an empty
array and both scalar kinds, at indents 2 and 3. -/
theorem c2_format_total_witness :
    (format (.Array [.Object [], .Array [], .Number (roundDec 1 0), .Null]) 2).isSome = true ∧
    (format (.Object [("k", .Boolean true)]) 3).isSome = true :=
  ⟨c2_format_total _ 2 (by norm_num), c2_format_total _ 3 (by norm_num)⟩

/-! ### C8 -/

/-- C8: the compact serializer re-quotes string payloads verbatim
(src/src/generate.rs:6): a quote, the payload's characters unchanged, a quote —
no re-escaping, as the instance with an embedded quote, backslash and newline
shows concretely. -/
theorem c8_compact_string_verbatim :
    (∀ s : String, displayChars (.String s) = '"' :: (s.data ++ ['"'])) ∧
    displayChars (.String "a\"b\\c\nd") = "\"a\"b\\c\nd\"".data :=
  ⟨fun _ => rfl, rfl⟩

/-! ### C9 -/

/-- C9: string indexing succeeds exactly on objects that hold the key (the
member value is returned); on an object without the key it fails with the
distinct not-found condition; on every non-object variant it fails with the
type-mismatch condition. Integer indexing succeeds exactly on arrays holding
the position and fails with the type-mismatch condition on every other
variant. The final conjuncts record that the conditions are distinct. -/
theorem c9_indexing :
    (∀ obj key x, getKV obj key = some x → indexStr (.Object obj) key = .ok x) ∧
    (∀ obj key, getKV obj key = none → indexStr (.Object obj) key = .error .keyNotFound) ∧
    (∀ v key, (∀ obj, v ≠ .Object obj) → indexStr v key = .error .typeMismatch) ∧
    (∀ v key x, indexStr v key = .ok x → ∃ obj, v = .Object obj ∧ getKV obj key = some x) ∧
    (∀ (arr : List Value) i x, arr[i]? = some x → indexNat (.Array arr) i = .ok x) ∧
    (∀ (arr : List Value) i, arr[i]? = none → indexNat (.Array arr) i = .error .outOfBounds) ∧
    (∀ v i, (∀ arr, v ≠ .Array arr) → indexNat v i = .error .typeMismatch) ∧
    (∀ v i x, indexNat v i = .ok x → ∃ arr, v = .Array arr ∧ arr[i]? = some x) ∧
    IndexErr.typeMismatch ≠ IndexErr.keyNotFound ∧
    IndexErr.typeMismatch ≠ IndexErr.outOfBounds := by
  refine ⟨?_, ?_, ?_, ?_, ?_, ?_, ?_, ?_, by decide, by decide⟩
  · intro obj key x h; simp [indexStr, h]
  · intro obj key h; simp [indexStr, h]
  · intro v key h
    cases v with
    | Object obj => exact absurd rfl (h obj)
    | _ => rfl
  · intro v key x h
    cases v with
    | Object obj =>
      refine ⟨obj, rfl, ?_⟩
      simp only [indexStr] at h
      cases hg : getKV obj key with
      | none => rw [hg] at h; exact absurd h (by simp)
      | some y => rw [hg] at h; simp at h; rw [h]
    | String s => exact absurd h (by simp [indexStr])
    | Number n => exact absurd h (by simp [indexStr])
    | Boolean b => exact absurd h (by simp [indexStr])
    | Null => exact absurd h (by simp [indexStr])
    | Array a => exact absurd h (by simp [indexStr])
  · intro arr i x h; simp [indexNat, h]
  · intro arr i h; simp [indexNat, h]
  · intro v i h
    cases v with
    | Array arr => exact absurd rfl (h arr)
    | _ => rfl
  · intro v i x h
    cases v with
    | Array arr =>
      refine ⟨arr, rfl, ?_⟩
      simp only [indexNat] at h
      cases hg : arr[i]? with
      | none => rw [hg] at h; exact absurd h (by simp)
      | some y => rw [hg] at h; simp at h; rw [h]
    | String s => exact absurd h (by simp [indexNat])
    | Number n => exact absurd h (by simp [indexNat])
    | Boolean b => exact absurd h (by simp [indexNat])
    | Null => exact absurd h (by simp [indexNat])
    | Object o => exact absurd h (by simp [indexNat])

/-- Witness for `c9_indexing`, discharging each kind of hypothesis at a
concrete value. -/
theorem c9_indexing_witness :
    indexStr (.Object [("k", .Null)]) "k" = .ok .Null ∧
    indexStr (.Object [("k", .Null)]) "m" = .error .keyNotFound ∧
    indexStr (.Boolean true) "k" = .error .typeMismatch ∧
    indexNat (.Object [("k", .Null)]) 0 = .error .typeMismatch ∧
    indexNat (.Array [.Null]) 0 = .ok .Null ∧
    indexNat (.Array [.Null]) 1 = .error .outOfBounds := by
  refine ⟨c9_indexing.1 _ _ _ rfl, c9_indexing.2.1 _ _ rfl, ?_, ?_,
    c9_indexing.2.2.2.2.1 _ _ _ rfl, c9_indexing.2.2.2.2.2.1 _ _ rfl⟩
  · exact c9_indexing.2.2.1 _ _ (by intro obj h; cases h)
  · exact c9_indexing.2.2.2.2.2.2.1 _ _ (by intro arr h; cases h)

end RJ

namespace RJ

set_option maxRecDepth 100000

/-! ### C10 -/

theorem hexQuadVal_some {c1 c2 c3 c4 : Char} {n : Nat} (h : hexQuadVal c1 c2 c3 c4 = some n) :
    ∃ d1 d2 d3 d4, toDigit16 c1 = some d1 ∧ toDigit16 c2 = some d2 ∧
      toDigit16 c3 = some d3 ∧ toDigit16 c4 = some d4 ∧
      ((d1 * 16 + d2) * 16 + d3) * 16 + d4 = n := by
  unfold hexQuadVal at h
  split at h
  · rename_i d1 d2 d3 d4 h1 h2 h3 h4
    exact ⟨d1, d2, d3, d4, h1, h2, h3, h4, by injection h⟩
  · exact absurd h (by simp)

theorem toDigit16_ne_quote {c : Char} {d : Nat} (h : toDigit16 c = some d) : ¬(c = '"') := by
  intro hc
  rw [hc, show toDigit16 '"' = none from rfl] at h
  exact Option.noConfusion h

theorem readHexDigits_cons (k : Nat) (c : Char) (rest : List Char) (acc d : Nat)
    (hq : ¬(c = '"')) (hd : toDigit16 c = some d) :
    readHexDigits (k + 1) (c :: rest) acc = readHexDigits k rest (acc * 16 + d) := by
  simp only [readHexDigits, if_neg hq, hd]

/-- The `uXXXX` arm of the string loop always fails with `invalidScalar` when the
four hex digits encode a surrogate, whatever the accumulator and the suffix. -/
theorem stringLoop_surrogate (fuel : Nat) (acc : String) (suffix : List Char)
    (c1 c2 c3 c4 : Char) (n : Nat) (hq : hexQuadVal c1 c2 c3 c4 = some n)
    (hlo : 0xD800 ≤ n) (hhi : n ≤ 0xDFFF) :
    stringLoop (fuel + 1) ('\\' :: 'u' :: c1 :: c2 :: c3 :: c4 :: suffix) acc =
      .error .invalidScalar := by
  obtain ⟨d1, d2, d3, d4, h1, h2, h3, h4, hn⟩ := hexQuadVal_some hq
  have q1 := toDigit16_ne_quote h1
  have q2 := toDigit16_ne_quote h2
  have q3 := toDigit16_ne_quote h3
  have q4 := toDigit16_ne_quote h4
  have step : stringLoop (fuel + 1) ('\\' :: 'u' :: c1 :: c2 :: c3 :: c4 :: suffix) acc =
      (match readHexDigits 4 (c1 :: c2 :: c3 :: c4 :: suffix) 0 with
       | .error err => .error err
       | .ok (m, rest3) =>
         match charFromU32 m with
         | some ch => stringLoop fuel rest3 (acc.push ch)
         | none => .error .invalidScalar) := rfl
  have hr : readHexDigits 4 (c1 :: c2 :: c3 :: c4 :: suffix) 0 = .ok (n, suffix) := by
    rw [show (4 : Nat) = 3 + 1 from rfl, readHexDigits_cons 3 c1 _ 0 d1 q1 h1,
        show (3 : Nat) = 2 + 1 from rfl, readHexDigits_cons 2 c2 _ _ d2 q2 h2,
        show (2 : Nat) = 1 + 1 from rfl, readHexDigits_cons 1 c3 _ _ d3 q3 h3,
        show (1 : Nat) = 0 + 1 from rfl, readHexDigits_cons 0 c4 _ _ d4 q4 h4]
    show Except.ok ((((0 * 16 + d1) * 16 + d2) * 16 + d3) * 16 + d4, suffix) = _
    rw [show (((0 * 16 + d1) * 16 + d2) * 16 + d3) * 16 + d4 = n by omega]
  have hc : charFromU32 n = none := by
    unfold charFromU32
    rw [if_neg (by omega)]
  rw [step, hr]
  simp only [hc]

/-- C10: a `\uXXXX` escape whose four hex digits encode a code point in the
surrogate range `0xD800`–`0xDFFF` always fails the string production with the
invalid-scalar error (`char::from_u32` returning `None`), wherever it occurs in
a string and whatever follows; the minimal document consisting of that escape in
quotes therefore fails to parse; and consequently no `String` payload any run of
the string production yields ever contains a surrogate code point. -/
theorem c10_surrogate_escape_rejected :
    (∀ (fuel : Nat) (acc : String) (suffix : List Char) (c1 c2 c3 c4 : Char) (n : Nat),
      hexQuadVal c1 c2 c3 c4 = some n → 0xD800 ≤ n → n ≤ 0xDFFF →
      stringLoop (fuel + 1) ('\\' :: 'u' :: c1 :: c2 :: c3 :: c4 :: suffix) acc =
        .error .invalidScalar) ∧
    (∀ (c1 c2 c3 c4 : Char) (n : Nat),
      hexQuadVal c1 c2 c3 c4 = some n → 0xD800 ≤ n → n ≤ 0xDFFF →
      parse ('"' :: '\\' :: 'u' :: c1 :: c2 :: c3 :: c4 :: ['"']) = .error .invalidScalar) ∧
    (∀ (input : List Char) (s : String) (rest : List Char), string input = .ok (s, rest) →
      ∀ c ∈ s.data, ¬(0xD800 ≤ c.toNat ∧ c.toNat ≤ 0xDFFF)) := by
  refine ⟨stringLoop_surrogate, ?_, ?_⟩
  · intro c1 c2 c3 c4 n hq hlo hhi
    have hs : string ('"' :: '\\' :: 'u' :: c1 :: c2 :: c3 :: c4 :: ['"']) =
        .error .invalidScalar := by
      have h8 : stringLoop 8 ('\\' :: 'u' :: c1 :: c2 :: c3 :: c4 :: ['"']) "" =
          .error .invalidScalar := stringLoop_surrogate 7 "" ['"'] c1 c2 c3 c4 n hq hlo hhi
      calc string ('"' :: '\\' :: 'u' :: c1 :: c2 :: c3 :: c4 :: ['"'])
          = stringLoop 8 ('\\' :: 'u' :: c1 :: c2 :: c3 :: c4 :: ['"']) "" := rfl
        _ = .error .invalidScalar := h8
    have hv : value 20 ('"' :: '\\' :: 'u' :: c1 :: c2 :: c3 :: c4 :: ['"']) =
        .error .invalidScalar := by
      have step : value 20 ('"' :: '\\' :: 'u' :: c1 :: c2 :: c3 :: c4 :: ['"']) =
          (match string ('"' :: '\\' :: 'u' :: c1 :: c2 :: c3 :: c4 :: ['"']) with
           | Except.ok (s, r) => Except.ok (Value.String s, r)
           | Except.error e => (Except.error e : Except ParseErr (Value × List Char))) := rfl
      rw [step, hs]
    have pstep : parse ('"' :: '\\' :: 'u' :: c1 :: c2 :: c3 :: c4 :: ['"']) =
        (match value 20 ('"' :: '\\' :: 'u' :: c1 :: c2 :: c3 :: c4 :: ['"']) with
         | Except.error e => (Except.error e : Except ParseErr Value)
         | Except.ok (v, rest) =>
           if (eat_whitespace rest).isEmpty then Except.ok v
           else Except.error ParseErr.trailingContent) := rfl
    rw [pstep, hv]
  · intro input s rest _ c _ hc
    have hv := c.valid
    have hval : c.toNat = c.val.toNat := rfl
    rcases hv with h | ⟨h1, h2⟩ <;> omega

/-- Witness for `c10_surrogate_escape_rejected` at the escape `\uD800`. -/
theorem c10_surrogate_witness :
    parse "\"\\uD800\"".data = .error .invalidScalar := by
  have h := c10_surrogate_escape_rejected.2.1 'D' '8' '0' '0' 0xD800 (by decide)
    (by norm_num) (by norm_num)
  exact h

end RJ

namespace RJ

set_option maxRecDepth 100000

/-! ### C4 -/

/-- C4 counterexample: the claim says only space, tab, newline and carriage
return are skipped, and that other Unicode whitespace such as U+00A0 leads to
an unexpected-token failure. `eat_whitespace` uses `char::is_whitespace`, the
full Unicode `White_Space` property, so U+00A0 (and U+000B, U+000C, …) before
a token is silently skipped and parsing succeeds. -/
theorem c4_counterexample :
    parse (' ' :: "true".data) = .ok (.Boolean true) ∧
    isRustWs ' ' = true ∧ isRustWs '\u000B' = true ∧ isRustWs '\u000C' = true :=
  ⟨rfl, rfl, rfl, rfl⟩

/-- C4 as amended: the characters skipped as leading whitespace are exactly
those of Rust's `char::is_whitespace` (the Unicode `White_Space` property,
`isRustWs`) — every such character is dropped and every other character stops
the skipping — and for every input whose first character after that skipping
matches no grammar production (none of the literal prefixes `false`/`null`/
`true`, not `{`, `[`, `"`, `-`, and not an ASCII digit), `parse` fails with the
unexpected-token error. -/
theorem c4_whitespace_and_unexpected_token :
    (∀ (c : Char) (input : List Char), isRustWs c = true →
      eat_whitespace (c :: input) = eat_whitespace input) ∧
    (∀ (c : Char) (input : List Char), isRustWs c = false →
      eat_whitespace (c :: input) = c :: input) ∧
    (∀ (input : List Char) (c : Char) (rest : List Char),
      eat_whitespace input = c :: rest →
      (c :: rest).take 5 ≠ "false".data →
      (c :: rest).take 4 ≠ "null".data →
      (c :: rest).take 4 ≠ "true".data →
      c ≠ '{' → c ≠ '[' → c ≠ '"' → c ≠ '-' → c.isDigit = false →
      parse input = .error .unexpectedToken) := by
  refine ⟨?_, ?_, ?_⟩
  · intro c input h
    simp [eat_whitespace, List.dropWhile, h]
  · intro c input h
    simp [eat_whitespace, List.dropWhile, h]
  · intro input c rest ht h5 h4n h4t hbr hbk hq hm hd
    have pstep : parse input =
        (match value (2 * input.length + 3 + 1) input with
         | Except.error e => (Except.error e : Except ParseErr Value)
         | Except.ok (v, r) =>
           if (eat_whitespace r).isEmpty then Except.ok v
           else Except.error ParseErr.trailingContent) := rfl
    rw [pstep]
    have hv : value (2 * input.length + 3 + 1) input = .error .unexpectedToken := by
      simp only [value]
      rw [ht]
      split
      · rename_i rest2 heq
        exfalso
        rw [heq] at h5
        exact h5 rfl
      · rename_i rest2 heq
        exfalso
        rw [heq] at h4n
        exact h4n rfl
      · rename_i rest2 heq
        exfalso
        rw [heq] at h4t
        exact h4t rfl
      · rename_i c2 rest2 heq
        injection heq with hc hr
        subst hc
        subst hr
        rw [if_neg hbr, if_neg hbk, if_neg hq,
          if_neg (fun h => h.elim hm (fun h2 => by simp [hd] at h2))]
      · rename_i heq
        exact absurd heq (by simp)
    rw [hv]

/-- Witness for `c4_whitespace_and_unexpected_token`: U+00A0 is skipped, `x`
is not, and `@` after no whitespace fails with the unexpected-token error. -/
theorem c4_whitespace_witness :
    eat_whitespace (' ' :: ['x']) = eat_whitespace ['x'] ∧
    eat_whitespace ('x' :: []) = 'x' :: [] ∧
    parse "@".data = .error .unexpectedToken := by
  refine ⟨c4_whitespace_and_unexpected_token.1 _ _ rfl,
    c4_whitespace_and_unexpected_token.2.1 _ _ rfl, ?_⟩
  exact c4_whitespace_and_unexpected_token.2.2 "@".data '@' [] rfl (by decide) (by decide)
    (by decide) (by decide) (by decide) (by decide) (by decide) rfl

/-! ### C6 -/

/-- C6 counterexample: the claim says the parser never produces Infinity, even
for `1e999`. The accumulated numeral `1e999` converts by standard float
parsing, which saturates to infinity past the largest double, so the parse
succeeds with an Infinity payload. -/
theorem c6_counterexample : parse "1e999".data = .ok (.Number .inf) := rfl

theorem round_match_ne_nan (r : Option (Nat × Int)) (neg : Prop) [Decidable neg] :
    (match r with
     | none => if neg then F64.negInf else F64.inf
     | some (m, e) => F64.finite (if neg then -(m : Int) else (m : Int)) e) ≠ F64.nan := by
  cases r with
  | none =>
    show (if neg then F64.negInf else F64.inf) ≠ F64.nan
    split <;> simp
  | some p => obtain ⟨m, e⟩ := p; simp

theorem roundDec_ne_nan (D E : Int) : roundDec D E ≠ .nan :=
  round_match_ne_nan _ (D < 0)

theorem rustParseF64_ne_nan {s : List Char} {x : F64} (h : rustParseF64 s = some x) :
    x ≠ .nan := by
  simp only [rustParseF64] at h
  repeat' split at h
  all_goals
    first
    | exact Option.noConfusion h
    | (injection h with h1
       rw [← h1]
       exact roundDec_ne_nan _ _)

theorem f64Neg_ne_nan {x : F64} (h : x ≠ .nan) : f64Neg x ≠ .nan := by
  cases x <;> simp [f64Neg]
  exact absurd rfl h

theorem number_ne_nan {input : List Char} {x : F64} {rest : List Char}
    (h : number input = .ok (x, rest)) : x ≠ .nan := by
  simp only [number] at h
  split at h
  · exact absurd h (by simp)
  · rename_i v hv
    simp only [Except.ok.injEq, Prod.mk.injEq] at h
    obtain ⟨h1, _⟩ := h
    rw [← h1]
    split
    · exact f64Neg_ne_nan (rustParseF64_ne_nan hv)
    · exact rustParseF64_ne_nan hv

theorem noNaNMems_insertKV {acc : List (String × Value)} {k : String} {v : Value}
    (ha : noNaNMems acc = true) (hv : noNaN v = true) :
    noNaNMems (insertKV acc k v) = true := by
  induction acc with
  | nil => simp [insertKV, noNaNMems, hv]
  | cons p rest ih =>
    obtain ⟨k0, v0⟩ := p
    simp only [noNaNMems, Bool.and_eq_true] at ha
    by_cases hk : k0 = k
    · simp only [insertKV, if_pos hk, noNaNMems, Bool.and_eq_true]
      exact ⟨hv, ha.2⟩
    · simp only [insertKV, if_neg hk, noNaNMems, Bool.and_eq_true]
      exact ⟨ha.1, ih ha.2⟩

theorem noNaNElems_append {acc : List Value} {v : Value}
    (ha : noNaNElems acc = true) (hv : noNaN v = true) :
    noNaNElems (acc ++ [v]) = true := by
  induction acc with
  | nil => simp [noNaNElems, hv]
  | cons a rest ih =>
    simp only [List.cons_append, noNaNElems, Bool.and_eq_true] at ha ⊢
    exact ⟨ha.1, ih ha.2⟩

mutual
theorem value_noNaN : ∀ (fuel : Nat) (input : List Char) (v : Value) (rest : List Char),
    value fuel input = .ok (v, rest) → noNaN v = true
  | 0, _, _, _, h => by simp [value] at h
  | fuel + 1, input, v, rest, h => by
    simp only [value] at h
    repeat' split at h
    all_goals
      first
      | exact Except.noConfusion h
      | (simp only [Except.ok.injEq, Prod.mk.injEq] at h
         obtain ⟨rfl, rfl⟩ := h
         first
         | rfl
         | (simp only [noNaN]
            exact object_noNaN _ _ _ _ (by assumption))
         | (simp only [noNaN]
            exact array_noNaN _ _ _ _ (by assumption))
         | (simp only [noNaN, decide_eq_true_eq]
            exact number_ne_nan (by assumption)))

theorem object_noNaN : ∀ (fuel : Nat) (input : List Char) (obj : List (String × Value))
    (rest : List Char), object fuel input = .ok (obj, rest) → noNaNMems obj = true
  | 0, _, _, _, h => by simp [object] at h
  | fuel + 1, input, obj, rest, h => by
    simp only [object] at h
    repeat' split at h
    all_goals
      first
      | exact Except.noConfusion h
      | (simp only [Except.ok.injEq, Prod.mk.injEq] at h
         obtain ⟨rfl, rfl⟩ := h
         rfl)
      | exact objLoop_noNaN _ _ _ _ _ h rfl

theorem objLoop_noNaN : ∀ (fuel : Nat) (cur : List Char) (acc obj : List (String × Value))
    (rest : List Char), objLoop fuel cur acc = .ok (obj, rest) →
    noNaNMems acc = true → noNaNMems obj = true
  | 0, _, _, _, _, h, _ => by simp [objLoop] at h
  | fuel + 1, cur, acc, obj, rest, h, hacc => by
    simp only [objLoop] at h
    repeat' split at h
    all_goals
      first
      | exact Except.noConfusion h
      | (simp only [Except.ok.injEq, Prod.mk.injEq] at h
         obtain ⟨rfl, rfl⟩ := h
         exact noNaNMems_insertKV hacc (value_noNaN _ _ _ _ (by assumption)))
      | (exact objLoop_noNaN _ _ _ _ _ h
          (noNaNMems_insertKV hacc (value_noNaN _ _ _ _ (by assumption))))

theorem array_noNaN : ∀ (fuel : Nat) (input : List Char) (arr : List Value)
    (rest : List Char), array fuel input = .ok (arr, rest) → noNaNElems arr = true
  | 0, _, _, _, h => by simp [array] at h
  | fuel + 1, input, arr, rest, h => by
    simp only [array] at h
    repeat' split at h
    all_goals
      first
      | exact Except.noConfusion h
      | (simp only [Except.ok.injEq, Prod.mk.injEq] at h
         obtain ⟨rfl, rfl⟩ := h
         rfl)
      | (exact arrLoop_noNaN _ _ _ _ _ h
          (by
            simp only [noNaNElems, Bool.and_eq_true]
            exact ⟨value_noNaN _ _ _ _ (by assumption), trivial⟩))

theorem arrLoop_noNaN : ∀ (fuel : Nat) (cur : List Char) (acc arr : List Value)
    (rest : List Char), arrLoop fuel cur acc = .ok (arr, rest) →
    noNaNElems acc = true → noNaNElems arr = true
  | 0, _, _, _, _, h, _ => by simp [arrLoop] at h
  | fuel + 1, cur, acc, arr, rest, h, hacc => by
    simp only [arrLoop] at h
    repeat' split at h
    all_goals
      first
      | exact Except.noConfusion h
      | (simp only [Except.ok.injEq, Prod.mk.injEq] at h
         obtain ⟨rfl, rfl⟩ := h
         exact hacc)
      | (exact arrLoop_noNaN _ _ _ _ _ h
          (noNaNElems_append hacc (value_noNaN _ _ _ _ (by assumption))))
end

/-- C6 as amended: for every input the parser accepts, no `Number` payload in
the resulting tree is `NaN` — but, as the counterexample records, a numeral
whose magnitude exceeds double range does produce Infinity, so "never
Infinity" does not hold. -/
theorem c6_no_nan : ∀ (input : List Char) (v : Value), parse input = .ok v →
    noNaN v = true := by
  intro input v h
  unfold parse at h
  split at h
  · exact Except.noConfusion h
  · rename_i p heq
    obtain ⟨v0, rest⟩ := p
    repeat' split at h
    all_goals
      first
      | exact Except.noConfusion h
      | (injection h with h1
         rw [← h1]
         exact value_noNaN _ _ _ _ heq)

/-- Witness for `c6_no_nan` on a document with every payload kind. -/
theorem c6_no_nan_witness :
    noNaN (.Object [("a", .Number (roundDec 1 0)), ("b", .Array [.Null, .Boolean true,
      .String "x"])]) = true :=
  c6_no_nan "\x7b\"a\": 1, \"b\": [null, true, \"x\"]\x7d".data _ rfl

end RJ

namespace RJ

set_option maxRecDepth 100000

/-! ### C5 -/

/-- C5 counterexample: the claimed classes include every array, but an array
containing a string with a quote, or a numeral past double range, breaks the
round trip: the compact form re-quotes strings verbatim (no re-escaping) so
`["\""]` serializes to `[\"\"\"]`, which fails to reparse; and `[1e999]`
parses to an Infinity whose compact form `[inf]` matches no production. -/
theorem c5_counterexample :
    parse "[\"\\\"\"]".data = .ok (.Array [.String "\""]) ∧
    parse (displayChars (.Array [.String "\""])) = .error .expectedCloseBracket ∧
    parse "[1e999]".data = .ok (.Array [.Number .inf]) ∧
    parse (displayChars (.Array [.Number .inf])) = .error .unexpectedToken :=
  ⟨rfl, rfl, rfl, rfl⟩

/-- A string character the serializer can re-quote losslessly: not the quote or
backslash (re-quoted verbatim, they would change the parse) and not an
unescapable control character. -/
def benignChar (c : Char) : Bool :=
  ¬(c = '"') ∧ ¬(c = '\\') ∧ ¬(c = '\n') ∧ ¬(c = '\r') ∧ ¬(c = '\t')

/-- A payload the string production reads back verbatim from its compact form:
benign characters, and not a nonempty all-whitespace string (those collapse to
empty under the fast path of `string`, see C3). -/
def benignStr (s : String) : Bool :=
  s.data.all benignChar && (s.data.isEmpty || s.data.any (fun c => !isRustWs c))

/-- The double `m * 2 ^ e` is exactly the value of a decimal numeral — i.e.
converting its own exact decimal value rounds to itself. This is the claim's
"finite number exactly representable in double precision", checkable by
evaluation. -/
def reprOk : F64 → Bool
  | .finite m e =>
    if 0 ≤ e then roundDec (m * 2 ^ e.toNat) 0 = F64.finite m e
    else roundDec (m * 5 ^ (-e).toNat) e = F64.finite m e
  | _ => false

def uniqueKeys : List String → Bool
  | [] => true
  | k :: rest => !(rest.any (fun k2 => k2 = k)) && uniqueKeys rest

mutual
/-- The trees whose compact form reparses to the same tree: benign strings
(keys included), object keys unique, and exactly representable finite
numbers. -/
def benignV : Value → Bool
  | .String s => benignStr s
  | .Number x => reprOk x
  | .Boolean _ => true
  | .Null => true
  | .Object obj => uniqueKeys (obj.map Prod.fst) && benignMems obj
  | .Array arr => benignElems arr

def benignMems : List (String × Value) → Bool
  | [] => true
  | (k, v) :: rest => benignStr k && benignV v && benignMems rest

def benignElems : List Value → Bool
  | [] => true
  | v :: rest => benignV v && benignElems rest
end

/-- A remainder that cannot extend any rendered token: empty, or delimiter-headed. -/
def delimOk : List Char → Bool
  | [] => true
  | c :: _ => c = ',' ∨ c = ']' ∨ c = '}'

end RJ

namespace RJ

set_option maxRecDepth 100000

/-! ### Decimal digit lemmas -/

theorem natDecAux_canon : ∀ (n f : Nat) (acc : List Char), n < f →
    natDecAux f n acc = natDecAux (n + 1) n acc := by
  intro n
  induction n using Nat.strong_induction_on with
  | _ n ih =>
    intro f acc hf
    cases f with
    | zero => omega
    | succ f =>
      simp only [natDecAux]
      by_cases h10 : n < 10
      · simp [h10]
      · rw [if_neg h10, if_neg h10,
          ih (n / 10) (by omega) f _ (by omega),
          ih (n / 10) (by omega) n _ (by omega)]

theorem natDecAux_append : ∀ (f n : Nat) (acc : List Char),
    natDecAux f n acc = natDecAux f n [] ++ acc := by
  intro f
  induction f with
  | zero => intro n acc; rfl
  | succ f ih =>
    intro n acc
    simp only [natDecAux]
    by_cases h10 : n < 10
    · simp [h10]
    · rw [if_neg h10, if_neg h10, ih (n / 10) _, ih (n / 10) [_]]
      simp [List.append_assoc]

theorem natDecimal_unfold (n : Nat) :
    natDecimal n =
      (if n < 10 then [] else natDecimal (n / 10)) ++ [Char.ofNat ('0'.toNat + n % 10)] := by
  rw [natDecimal]
  simp only [natDecAux]
  by_cases h10 : n < 10
  · rw [if_pos h10, if_pos h10]
    rw [Nat.mod_eq_of_lt h10]
    simp
  · rw [if_neg h10, if_neg h10, natDecAux_canon (n / 10) n _ (by omega)]
    exact natDecAux_append (n / 10 + 1) (n / 10) _

theorem natDecimal_ne_nil (n : Nat) : natDecimal n ≠ [] := by
  rw [natDecimal_unfold]
  simp

theorem digit_char_spec (k : Nat) (h : k < 10) :
    (Char.ofNat ('0'.toNat + k)).isDigit = true ∧
      (Char.ofNat ('0'.toNat + k)).toNat - '0'.toNat = k := by
  interval_cases k <;> decide

theorem natDecimal_all_digits (n : Nat) : ∀ c ∈ natDecimal n, c.isDigit = true := by
  induction n using Nat.strong_induction_on with
  | _ n ih =>
    rw [natDecimal_unfold]
    intro c hc
    rw [List.mem_append] at hc
    rcases hc with hc | hc
    · by_cases h10 : n < 10
      · rw [if_pos h10] at hc
        exact absurd hc (List.not_mem_nil c)
      · rw [if_neg h10] at hc
        exact ih (n / 10) (by omega) c hc
    · rw [List.mem_singleton] at hc
      rw [hc]
      exact (digit_char_spec (n % 10) (by omega)).1

theorem digitsVal_go (acc : Nat) (ds : List Char) :
    ds.foldl (fun a c => a * 10 + (c.toNat - '0'.toNat)) acc
      = acc * 10 ^ ds.length + digitsVal ds := by
  induction ds generalizing acc with
  | nil => simp [digitsVal]
  | cons c t ih =>
    simp only [List.foldl_cons, List.length_cons, digitsVal]
    rw [ih (acc * 10 + (c.toNat - '0'.toNat)), ih (0 * 10 + (c.toNat - '0'.toNat))]
    ring

theorem digitsVal_append (a b : List Char) :
    digitsVal (a ++ b) = digitsVal a * 10 ^ b.length + digitsVal b := by
  unfold digitsVal
  rw [List.foldl_append]
  exact digitsVal_go _ b

theorem natDecimal_digitsVal (n : Nat) : digitsVal (natDecimal n) = n := by
  induction n using Nat.strong_induction_on with
  | _ n ih =>
    rw [natDecimal_unfold]
    by_cases h10 : n < 10
    · rw [if_pos h10]
      simp only [List.nil_append]
      show digitsVal [_] = n
      unfold digitsVal
      simp only [List.foldl_cons, List.foldl_nil]
      rw [(digit_char_spec (n % 10) (by omega)).2]
      omega
    · rw [if_neg h10, digitsVal_append, ih (n / 10) (by omega)]
      show n / 10 * 10 ^ (List.length [_]) + digitsVal [_] = n
      unfold digitsVal
      simp only [List.length_singleton, List.foldl_cons, List.foldl_nil, pow_one]
      rw [(digit_char_spec (n % 10) (by omega)).2]
      omega

theorem digitsVal_replicate_zero (k : Nat) : digitsVal (List.replicate k '0') = 0 := by
  induction k with
  | zero => rfl
  | succ k ih =>
    rw [List.replicate_succ]
    have : digitsVal ('0' :: List.replicate k '0') =
        ('0' :: List.replicate k '0').foldl (fun a c => a * 10 + (c.toNat - '0'.toNat)) 0 := rfl
    rw [this]
    simp only [List.foldl_cons]
    rw [digitsVal_go]
    simp [ih]

theorem digitsVal_padZeros (w : Nat) (ds : List Char) :
    digitsVal (padZeros w ds) = digitsVal ds := by
  unfold padZeros
  rw [digitsVal_append, digitsVal_replicate_zero]
  ring

theorem padZeros_length {w : Nat} {ds : List Char} (h : ds.length ≤ w) :
    (padZeros w ds).length = w := by
  unfold padZeros
  simp
  omega

theorem padZeros_all_digits {w : Nat} {ds : List Char}
    (h : ∀ c ∈ ds, c.isDigit = true) : ∀ c ∈ padZeros w ds, c.isDigit = true := by
  intro c hc
  unfold padZeros at hc
  rw [List.mem_append] at hc
  rcases hc with hc | hc
  · rw [List.eq_of_mem_replicate hc]
    decide
  · exact h c hc

theorem rev_strip (rv : List Char) :
    rv.reverse = (rv.dropWhile (fun c => c = '0')).reverse ++
      List.replicate (rv.takeWhile (fun c => c = '0')).length '0' := by
  conv_lhs => rw [← List.takeWhile_append_dropWhile (p := fun c => c = '0') (l := rv)]
  rw [List.reverse_append]
  congr 1
  have hall : ∀ b ∈ (rv.takeWhile (fun c => c = '0')).reverse, b = '0' := by
    intro b hb
    rw [List.mem_reverse] at hb
    simpa using List.mem_takeWhile_imp hb
  rw [List.eq_replicate_of_mem hall]
  simp

theorem stripZeros_spec (ds : List Char) :
    ∃ k, ds = stripZeros ds ++ List.replicate k '0' := by
  refine ⟨(ds.reverse.takeWhile (fun c => c = '0')).length, ?_⟩
  unfold stripZeros
  have := rev_strip ds.reverse
  rwa [List.reverse_reverse] at this

theorem stripZeros_sub (ds : List Char) : ∀ c ∈ stripZeros ds, c ∈ ds := by
  intro c hc
  unfold stripZeros at hc
  rw [List.mem_reverse] at hc
  have := ds.reverse.dropWhile_sublist (p := fun c => c = '0')
  have hm := this.mem hc
  rwa [List.mem_reverse] at hm

end RJ

namespace RJ

set_option maxRecDepth 100000

/-! ### Character-class facts -/

theorem isDigit_toNat {c : Char} (h : c.isDigit = true) : 48 ≤ c.toNat ∧ c.toNat ≤ 57 := by
  simp only [Char.isDigit, Bool.and_eq_true, decide_eq_true_eq] at h
  obtain ⟨h1, h2⟩ := h
  constructor
  · exact h1
  · exact h2

theorem digit_facts {c : Char} (h : c.isDigit = true) :
    isRustWs c = false ∧ numChar c = true ∧ benignChar c = true ∧
    ¬(c = 'f') ∧ ¬(c = 'n') ∧ ¬(c = 't') ∧ ¬(c = '{') ∧ ¬(c = '[') ∧ ¬(c = '"') ∧
    ¬(c = '-') ∧ ¬(c = ',') ∧ ¬(c = ']') ∧ ¬(c = '}') ∧ ¬(c = '.') ∧ ¬(c = '+') := by
  obtain ⟨hlo, hhi⟩ := isDigit_toNat h
  refine ⟨?_, ?_, ?_, ?_, ?_, ?_, ?_, ?_, ?_, ?_, ?_, ?_, ?_, ?_, ?_⟩
  · simp only [isRustWs, decide_eq_false_iff_not]
    omega
  · simp [numChar, h]
  · simp only [benignChar, Bool.and_eq_true, decide_eq_true_eq]
    refine ⟨?_, ?_, ?_, ?_, ?_⟩ <;> (rintro rfl; revert hlo hhi; decide)
  all_goals (rintro rfl; revert hlo hhi; decide)

theorem benignChar_spec {c : Char} (h : benignChar c = true) :
    ¬(c = '"') ∧ ¬(c = '\\') ∧ ¬(c = '\n' ∨ c = '\r' ∨ c = '\t') := by
  simp only [benignChar, Bool.and_eq_true, decide_eq_true_eq] at h
  tauto

/-! ### Invariance of the rounding under a common decimal scale -/

theorem rne_scale (x y c : Nat) (hc : 0 < c) : rne (x * c) (y * c) = rne x y := by
  have hdiv : x * c / (y * c) = x / y := by
    rw [Nat.mul_comm x c, Nat.mul_comm y c, Nat.mul_div_mul_left x y hc]
  have hmod : x * c % (y * c) = x % y * c := Nat.mul_mod_mul_right c x y
  simp only [rne]
  rw [hdiv, hmod]
  by_cases h1 : 2 * (x % y) < y
  · rw [if_pos (by rw [← Nat.mul_assoc]; exact (mul_lt_mul_right hc).mpr h1), if_pos h1]
  · rw [if_neg (by rw [← Nat.mul_assoc]; exact fun hh => h1 ((mul_lt_mul_right hc).mp hh)),
      if_neg h1]
    by_cases h2 : y < 2 * (x % y)
    · rw [if_pos (by rw [← Nat.mul_assoc]; exact (mul_lt_mul_right hc).mpr h2), if_pos h2]
    · rw [if_neg (by rw [← Nat.mul_assoc]; exact fun hh => h2 ((mul_lt_mul_right hc).mp hh)),
        if_neg h2]

theorem floorLog2F_scale (a b c : Nat) (hc : 0 < c) :
    floorLog2F (a * c) (b * c) = floorLog2F a b := by
  have hdiv1 : a * c / (b * c) = a / b := by
    rw [Nat.mul_comm a c, Nat.mul_comm b c, Nat.mul_div_mul_left a b hc]
  have hdiv2 : b * c / (a * c) = b / a := by
    rw [Nat.mul_comm a c, Nat.mul_comm b c, Nat.mul_div_mul_left b a hc]
  simp only [floorLog2F]
  rw [hdiv1, hdiv2]
  by_cases hba : b ≤ a
  · rw [if_pos ((mul_le_mul_right hc).mpr hba), if_pos hba]
  · rw [if_neg (fun hh => hba ((mul_le_mul_right hc).mp hh)), if_neg hba]
    by_cases h2 : a * 2 ^ natLog2 (b / a) = b
    · rw [if_pos (by rw [show a * c * 2 ^ natLog2 (b / a) = a * 2 ^ natLog2 (b / a) * c
          from by ring, h2]), if_pos h2]
    · rw [if_neg (fun hh => h2 (mul_right_cancel₀ (show c ≠ 0 by omega)
        (by rw [show a * 2 ^ natLog2 (b / a) * c = a * c * 2 ^ natLog2 (b / a) from by ring,
          hh]))), if_neg h2]

theorem roundMag_scale (a b c : Nat) (hc : 0 < c) :
    roundMag (a * c) (b * c) = roundMag a b := by
  simp only [roundMag]
  rw [floorLog2F_scale a b c hc]
  by_cases hz : a = 0
  · rw [if_pos (by rw [hz]; ring), if_pos hz]
  · rw [if_neg (fun hh => hz (by rcases Nat.mul_eq_zero.mp hh with h | h; exact h; omega)),
      if_neg hz]
    by_cases hov : (2 ^ 1024 - 2 ^ 970) * b ≤ a
    · rw [if_pos (by rw [← Nat.mul_assoc, Nat.mul_comm ((2 ^ 1024 - 2 ^ 970) * b) c,
          Nat.mul_comm a c]; exact (mul_le_mul_left hc).mpr hov), if_pos hov]
    · rw [if_neg (fun hh => hov (by
          rw [← Nat.mul_assoc, Nat.mul_comm ((2 ^ 1024 - 2 ^ 970) * b) c,
            Nat.mul_comm a c] at hh
          exact (mul_le_mul_left hc).mp hh)), if_neg hov]
      by_cases hu : (0 : Int) ≤ max (floorLog2F a b - 52) (-1074)
      · rw [if_pos hu, if_pos hu,
          show b * c * 2 ^ (max (floorLog2F a b - 52) (-1074)).toNat =
            b * 2 ^ (max (floorLog2F a b - 52) (-1074)).toNat * c from by ring,
          rne_scale _ _ c hc]
      · rw [if_neg hu, if_neg hu,
          show a * c * 2 ^ (-max (floorLog2F a b - 52) (-1074)).toNat =
            a * 2 ^ (-max (floorLog2F a b - 52) (-1074)).toNat * c from by ring,
          rne_scale _ _ c hc]

end RJ

namespace RJ

set_option maxRecDepth 100000

theorem roundDec_scale (D E : Int) (d : Nat) :
    roundDec (D * 10 ^ d) (E - d) = roundDec D E := by
  have habs : (D * 10 ^ d).natAbs = D.natAbs * 10 ^ d := by
    rw [Int.natAbs_mul]
    congr 1
    rw [Int.natAbs_pow]
    rfl
  have hpow : (0 : Int) < 10 ^ d := pow_pos (by norm_num) d
  have hsign : (D * 10 ^ d < 0) = (D < 0) :=
    propext ⟨fun h => by nlinarith, fun h => by nlinarith⟩
  simp only [roundDec]
  rw [habs]
  simp only [hsign]
  by_cases hE1 : (0 : Int) ≤ E - d
  · have hE2 : (0 : Int) ≤ E := by omega
    rw [if_pos hE1, if_pos hE2]
    have harg : D.natAbs * 10 ^ d * 10 ^ (E - d).toNat = D.natAbs * 10 ^ E.toNat := by
      rw [Nat.mul_assoc, ← pow_add]
      congr 2
      omega
    rw [harg]
  · by_cases hE2 : (0 : Int) ≤ E
    · rw [if_neg hE1, if_pos hE2]
      have key : roundMag (D.natAbs * 10 ^ d) (10 ^ (-(E - d)).toNat) =
          roundMag (D.natAbs * 10 ^ E.toNat) 1 := by
        have h1 : D.natAbs * 10 ^ d = D.natAbs * 10 ^ E.toNat * 10 ^ (-(E - d)).toNat := by
          rw [Nat.mul_assoc, ← pow_add]
          congr 2
          omega
        rw [h1]
        have hs := roundMag_scale (D.natAbs * 10 ^ E.toNat) 1
          ((10 : Nat) ^ (-(E - (d : Int))).toNat) (pow_pos (by norm_num) _)
        rwa [Nat.one_mul] at hs
      rw [key]
    · rw [if_neg hE1, if_neg hE2]
      have key : roundMag (D.natAbs * 10 ^ d) (10 ^ (-(E - d)).toNat) =
          roundMag D.natAbs (10 ^ (-E).toNat) := by
        have h2 : (10 : Nat) ^ (-(E - d)).toNat = 10 ^ (-E).toNat * 10 ^ d := by
          rw [← pow_add]
          congr 1
          omega
        rw [h2]
        exact roundMag_scale D.natAbs ((10 : Nat) ^ (-E).toNat) ((10 : Nat) ^ d)
          (pow_pos (by norm_num) _)
      rw [key]

theorem roundMag_zero (den : Nat) : roundMag 0 den = some (0, 0) := by
  simp [roundMag]

theorem roundDec_neg (D E : Int) : roundDec (-D) E = f64Neg (roundDec D E) := by
  simp only [roundDec, Int.natAbs_neg]
  cases hr : (if (0 : Int) ≤ E then roundMag (D.natAbs * 10 ^ E.toNat) 1
      else roundMag D.natAbs (10 ^ (-E).toNat)) with
  | none =>
    have hD : D ≠ 0 := by
      intro h0
      rw [h0] at hr
      simp only [Int.natAbs_zero, Nat.zero_mul, roundMag_zero] at hr
      split at hr
      · exact Option.noConfusion hr
      · exact Option.noConfusion hr
    rcases lt_trichotomy D 0 with h | h | h
    · rw [if_neg (by omega : ¬(-D < 0)), if_pos h]
      rfl
    · exact absurd h hD
    · rw [if_pos (by omega : -D < 0), if_neg (by omega : ¬(D < 0))]
      rfl
  | some p =>
    obtain ⟨m, e⟩ := p
    by_cases h0 : D = 0
    · have hm : m = 0 := by
        rw [h0] at hr
        simp only [Int.natAbs_zero, Nat.zero_mul, roundMag_zero] at hr
        split at hr
        all_goals
          injection hr with hp
          injection hp with h1 h2
          exact h1.symm
      subst h0
      rw [hm]
      simp [f64Neg]
    · simp only [f64Neg]
      congr 1
      split_ifs <;> omega

end RJ

namespace RJ

set_option maxRecDepth 100000

/-! ### takeWhile / dropWhile over printed runs -/

theorem takeWhile_append_stop {p : Char → Bool} :
    ∀ (a rest : List Char), (∀ c ∈ a, p c = true) →
    (rest = [] ∨ ∃ c t, rest = c :: t ∧ p c = false) →
    (a ++ rest).takeWhile p = a ∧ (a ++ rest).dropWhile p = rest := by
  intro a
  induction a with
  | nil =>
    intro rest _ hrest
    rcases hrest with rfl | ⟨c, t, rfl, hc⟩
    · exact ⟨rfl, rfl⟩
    · simp [List.takeWhile, List.dropWhile, hc]
  | cons x xs ih =>
    intro rest hall hrest
    have hx : p x = true := hall x (by simp)
    obtain ⟨h1, h2⟩ := ih rest (fun c hc => hall c (by simp [hc])) hrest
    constructor
    · simp [List.takeWhile, hx, h1]
    · simp [List.dropWhile, hx, h2]

theorem takeWhile_all {p : Char → Bool} (a : List Char) (hall : ∀ c ∈ a, p c = true) :
    a.takeWhile p = a ∧ a.dropWhile p = [] := by
  have := takeWhile_append_stop a [] hall (Or.inl rfl)
  rwa [List.append_nil] at this

theorem natDecimal_head (n : Nat) :
    ∃ c t, natDecimal n = c :: t ∧ c.isDigit = true := by
  cases h : natDecimal n with
  | nil => exact absurd h (natDecimal_ne_nil n)
  | cons c t =>
    refine ⟨c, t, rfl, ?_⟩
    exact natDecimal_all_digits n c (h ▸ List.mem_cons_self ..)

/-! ### Parsing a rendered numeral -/

theorem splitSign_not_sign {c : Char} (t : List Char) (hp : ¬(c = '+')) (hm : ¬(c = '-')) :
    splitSign (c :: t) = (false, c :: t) := by
  simp only [splitSign]
  split
  · rename_i heq
    injection heq with h1 h2
    exact absurd h1 hp
  · rename_i heq
    injection heq with h1 h2
    exact absurd h1 hm
  · rfl

theorem splitFrac_not_point : ∀ {s : List Char}, (∀ t, s ≠ '.' :: t) →
    splitFrac s = ([], s) := by
  intro s hs
  simp only [splitFrac]

/-- A nonempty pure digit run parses to the rounding of its value. -/
theorem rustParseF64_digits (ds : List Char) (hne : ds ≠ [])
    (hall : ∀ c ∈ ds, c.isDigit = true) :
    rustParseF64 ds = some (roundDec (digitsVal ds) 0) := by
  obtain ⟨c, t, rfl, hc⟩ : ∃ c t, ds = c :: t ∧ c.isDigit = true := by
    cases ds with
    | nil => exact absurd rfl hne
    | cons c t => exact ⟨c, t, rfl, hall c (by simp)⟩
  obtain ⟨-, -, -, -, -, -, -, -, -, hm, -, -, -, -, hp⟩ := digit_facts hc
  have htake := takeWhile_all (p := Char.isDigit) (c :: t) hall
  simp only [rustParseF64, splitSign_not_sign t hp hm]
  rw [htake.1, htake.2]
  rw [splitFrac_not_point (by intro t2 h; exact List.noConfusion h)]
  simp only [List.isEmpty_nil, List.isEmpty_cons]
  rw [if_neg (by simp)]
  simp

/-- A digits-point-digits run parses to the rounding of its decimal value. -/
theorem rustParseF64_point (ds1 ds2 : List Char) (h1 : ds1 ≠ []) (h2 : ds2 ≠ [])
    (ha1 : ∀ c ∈ ds1, c.isDigit = true) (ha2 : ∀ c ∈ ds2, c.isDigit = true) :
    rustParseF64 (ds1 ++ '.' :: ds2) =
      some (roundDec (digitsVal ds1 * 10 ^ ds2.length + digitsVal ds2)
        (-(ds2.length : Int))) := by
  obtain ⟨c, t, rfl, hc⟩ : ∃ c t, ds1 = c :: t ∧ c.isDigit = true := by
    cases ds1 with
    | nil => exact absurd rfl h1
    | cons c t => exact ⟨c, t, rfl, ha1 c (by simp)⟩
  obtain ⟨-, -, -, -, -, -, -, -, -, hm, -, -, -, -, hp⟩ := digit_facts hc
  have htake := takeWhile_append_stop (c :: t) ('.' :: ds2) ha1
    (Or.inr ⟨'.', ds2, rfl, by decide⟩)
  have htake2 := takeWhile_all (p := Char.isDigit) ds2 ha2
  rw [show (c :: t) ++ '.' :: ds2 = c :: (t ++ '.' :: ds2) from rfl]
  simp only [rustParseF64, splitSign_not_sign (t ++ '.' :: ds2) hp hm]
  rw [show c :: (t ++ '.' :: ds2) = (c :: t) ++ '.' :: ds2 from rfl]
  rw [htake.1, htake.2]
  simp only [splitFrac]
  rw [htake2.1, htake2.2]
  rw [if_neg (by simp)]
  simp only [digitsVal_append, Bool.false_eq_true, if_false]
  congr 2
  push_cast
  ring

end RJ

namespace RJ

set_option maxRecDepth 100000

/-! ### Reading back a printed magnitude -/

theorem natDecimal_length : ∀ (n k : Nat), 0 < k → n < 10 ^ k → (natDecimal n).length ≤ k := by
  intro n
  induction n using Nat.strong_induction_on with
  | _ n ih =>
    intro k hk hn
    rw [natDecimal_unfold]
    by_cases h10 : n < 10
    · rw [if_pos h10]
      simpa using hk
    · rw [if_neg h10]
      have hk2 : 2 ≤ k := by
        rcases Nat.lt_or_ge k 2 with h | h
        · exfalso
          have hk1 : k = 1 := by omega
          rw [hk1, pow_one] at hn
          omega
        · exact h
      have hdiv : n / 10 < 10 ^ (k - 1) := by
        rw [Nat.div_lt_iff_lt_mul (by norm_num)]
        have hpow : 10 ^ (k - 1) * 10 = 10 ^ k := by
          rw [← pow_succ]
          congr 1
          omega
        omega
      have hih := ih (n / 10) (by omega) (k - 1) (by omega) hdiv
      simp only [List.length_append, List.length_singleton]
      omega

theorem eat_ws_cons {c : Char} (t : List Char) (hc : isRustWs c = false) :
    eat_whitespace (c :: t) = c :: t := by
  simp [eat_whitespace, List.dropWhile_cons, hc]

/-- A printed integer reparses to the rounding of its value. -/
theorem rustParseF64_natDecimal (n : Nat) :
    rustParseF64 (natDecimal n) = some (roundDec n 0) := by
  rw [rustParseF64_digits (natDecimal n) (natDecimal_ne_nil n) (natDecimal_all_digits n),
    natDecimal_digitsVal]

/-- Scaling a whole decimal value out of the exponent. -/
theorem roundDec_div_pow (M fl : Nat) (h : M % 10 ^ fl = 0) :
    roundDec ((M / 10 ^ fl : Nat) : Int) 0 = roundDec (M : Int) (-(fl : Int)) := by
  have hdvd : (10 : Nat) ^ fl ∣ M := Nat.dvd_of_mod_eq_zero h
  have harg : ((M / 10 ^ fl : Nat) : Int) * 10 ^ fl = (M : Int) := by
    exact_mod_cast congrArg (Nat.cast : Nat → Int) (Nat.div_mul_cancel hdvd)
  have hs := roundDec_scale ((M / 10 ^ fl : Nat) : Int) 0 fl
  rw [harg, zero_sub] at hs
  exact hs.symm

/-- The integer-point-fraction spelling printed by `f64Display` for a value
`M / 10 ^ fl` with a nonzero fractional part reparses to the rounding of that
value. -/
theorem rustParseF64_frac (fl M : Nat) (hne : M % 10 ^ fl ≠ 0) :
    rustParseF64 (natDecimal (M / 10 ^ fl) ++
      '.' :: stripZeros (padZeros fl (natDecimal (M % 10 ^ fl)))) =
    some (roundDec (M : Int) (-(fl : Int))) := by
  have hpow : 0 < (10 : Nat) ^ fl := pow_pos (by norm_num) fl
  have hflpos : 0 < fl := by
    rcases Nat.eq_zero_or_pos fl with h0 | h0
    · exfalso
      rw [h0, pow_zero, Nat.mod_one] at hne
      exact hne rfl
    · exact h0
  set R := M % 10 ^ fl with hR
  have hRne : R ≠ 0 := hne
  have hRlt : R < 10 ^ fl := Nat.mod_lt M hpow
  have hlen : (natDecimal R).length ≤ fl := natDecimal_length R fl hflpos hRlt
  set padded := padZeros fl (natDecimal R) with hpadded
  have hplen : padded.length = fl := padZeros_length hlen
  have hpdig : ∀ c ∈ padded, c.isDigit = true :=
    padZeros_all_digits (natDecimal_all_digits R)
  have hpval : digitsVal padded = R := by
    rw [hpadded, digitsVal_padZeros, natDecimal_digitsVal]
  obtain ⟨z, hz⟩ := stripZeros_spec padded
  set frac := stripZeros padded with hfrac
  have hfdig : ∀ c ∈ frac, c.isDigit = true := fun c hc =>
    hpdig c (stripZeros_sub padded c hc)
  have hzval : digitsVal frac * 10 ^ z = R := by
    rw [hz, digitsVal_append, digitsVal_replicate_zero, List.length_replicate] at hpval
    omega
  have hfne : frac ≠ [] := by
    intro h
    rw [h] at hzval
    have : digitsVal ([] : List Char) = 0 := rfl
    rw [this] at hzval
    omega
  have hflen : frac.length + z = fl := by
    have hlz := congrArg List.length hz
    rw [List.length_append, List.length_replicate] at hlz
    omega
  rw [rustParseF64_point _ _ (natDecimal_ne_nil _) hfne (natDecimal_all_digits _) hfdig]
  congr 1
  rw [natDecimal_digitsVal]
  have hfl' : fl = frac.length + z := hflen.symm
  have hznat : (R : Int) = (digitsVal frac : Int) * 10 ^ z := by exact_mod_cast hzval.symm
  have hDz : (((M / 10 ^ fl : Nat) : Int) * 10 ^ frac.length + (digitsVal frac : Int)) * 10 ^ z
      = (M : Int) := by
    have h1 : M / 10 ^ fl * 10 ^ fl + R = M := by
      have h2 := Nat.div_add_mod M (10 ^ fl)
      rw [Nat.mul_comm] at h2
      omega
    have h1' : ((M / 10 ^ fl : Nat) : Int) * 10 ^ fl + (R : Int) = (M : Int) := by
      exact_mod_cast h1
    rw [← h1', hfl', pow_add, hznat]
    ring
  have hs := roundDec_scale
    (((M / 10 ^ fl : Nat) : Int) * 10 ^ frac.length + (digitsVal frac : Int))
    (-(frac.length : Int)) z
  rw [hDz] at hs
  have hE : -(frac.length : Int) - (z : Int) = -(fl : Int) := by
    rw [hfl']
    push_cast
    ring
  rw [hE] at hs
  rw [← hs]

end RJ

namespace RJ

set_option maxRecDepth 100000

/-! ### `number` on a printed numeral -/

theorem digit_enum {c : Char} (h : c.isDigit = true) :
    c = '0' ∨ c = '1' ∨ c = '2' ∨ c = '3' ∨ c = '4' ∨ c = '5' ∨ c = '6' ∨ c = '7' ∨
      c = '8' ∨ c = '9' := by
  obtain ⟨h1, h2⟩ := isDigit_toNat h
  have hofn := Char.ofNat_toNat c
  interval_cases hn : c.toNat <;> rw [← hofn] <;> decide

/-- `number` on an input that opens with a digit: no sign is consumed, the
maximal `numChar` run is fed to the float conversion. -/
theorem number_nonneg (c : Char) (s : List Char) (x : F64)
    (hc : c.isDigit = true)
    (hparse : rustParseF64 ((c :: s).takeWhile numChar) = some x) :
    number (c :: s) = .ok (x, (c :: s).dropWhile numChar) := by
  have key : number (c :: s) = (match rustParseF64 ((c :: s).takeWhile numChar) with
      | none => Except.error ParseErr.numberUnwrap
      | some v => Except.ok (v, (c :: s).dropWhile numChar)) := by
    rcases digit_enum hc with rfl|rfl|rfl|rfl|rfl|rfl|rfl|rfl|rfl|rfl <;> rfl
  rw [key, hparse]

/-- `number` on an input that opens with the minus sign: the sign is consumed
and the converted value negated. -/
theorem number_minus (s : List Char) (x : F64)
    (hparse : rustParseF64 (s.takeWhile numChar) = some x) :
    number ('-' :: s) = .ok (f64Neg x, s.dropWhile numChar) := by
  have key : number ('-' :: s) = (match rustParseF64 (s.takeWhile numChar) with
      | none => Except.error ParseErr.numberUnwrap
      | some v => Except.ok (f64Neg v, s.dropWhile numChar)) := rfl
  rw [key, hparse]

theorem f64Neg_f64Neg (x : F64) : f64Neg (f64Neg x) = x := by
  cases x <;> simp [f64Neg]

/-- The common shape of `number` on a printed magnitude `body` preceded by the
sign of `m`: the whole printed run is consumed and the reparse reassembles the
signed rounding. -/
theorem number_print_core (m : Int) (x : F64) (E : Int) (B : Nat) (body rest : List Char)
    (hhead : ∃ c t, body = c :: t ∧ c.isDigit = true)
    (hall : ∀ c ∈ body, numChar c = true)
    (hparse : rustParseF64 body = some (roundDec ((m.natAbs * B : Nat) : Int) E))
    (hrnd : roundDec (m * (B : Int)) E = x)
    (hrest : rest = [] ∨ ∃ c t, rest = c :: t ∧ numChar c = false) :
    number ((if m < 0 then ['-'] else []) ++ (body ++ rest)) = .ok (x, rest) := by
  obtain ⟨c, t, hct, hcdig⟩ := hhead
  have htw := takeWhile_append_stop body rest hall hrest
  have hparse2 : rustParseF64 ((body ++ rest).takeWhile numChar)
      = some (roundDec ((m.natAbs * B : Nat) : Int) E) := by
    rw [htw.1]
    exact hparse
  by_cases hm : m < 0
  · rw [if_pos hm, List.singleton_append]
    rw [number_minus (body ++ rest) _ hparse2, htw.2]
    have hna : (m.natAbs : Int) = -m := by omega
    have hcast : ((m.natAbs * B : Nat) : Int) = -(m * B) := by
      push_cast
      rw [abs_of_neg hm]
      ring
    rw [hcast, roundDec_neg, hrnd, f64Neg_f64Neg]
  · rw [if_neg hm, List.nil_append]
    rw [hct, List.cons_append]
    have hparse3 : rustParseF64 ((c :: (t ++ rest)).takeWhile numChar)
        = some (roundDec ((m.natAbs * B : Nat) : Int) E) := by
      rw [← List.cons_append, ← hct]
      exact hparse2
    rw [number_nonneg c (t ++ rest) _ hcdig hparse3]
    rw [← List.cons_append, ← hct, htw.2]
    have hcast : ((m.natAbs * B : Nat) : Int) = m * B := by
      push_cast
      rw [abs_of_nonneg (by omega : (0 : Int) ≤ m)]
    rw [hcast, hrnd]

/-- `number` reads back the printed form of an exactly representable finite
double, consuming exactly the printed characters. -/
theorem number_print (m e : Int) (rest : List Char)
    (hrepr : reprOk (F64.finite m e) = true)
    (hrest : rest = [] ∨ ∃ c t, rest = c :: t ∧ numChar c = false) :
    number (f64Display (F64.finite m e) ++ rest) = .ok (F64.finite m e, rest) := by
  simp only [reprOk] at hrepr
  by_cases he : (0 : Int) ≤ e
  · rw [if_pos he] at hrepr
    have hrnd : roundDec (m * ((2 ^ e.toNat : Nat) : Int)) 0 = F64.finite m e := by
      have := of_decide_eq_true hrepr
      rw [← this]
      congr 1
      push_cast
      ring
    have hdisp : f64Display (F64.finite m e) =
        (if m < 0 then ['-'] else []) ++ natDecimal (m.natAbs * 2 ^ e.toNat) := by
      simp only [f64Display, if_pos he]
    rw [hdisp, List.append_assoc]
    refine number_print_core m (F64.finite m e) 0 (2 ^ e.toNat) _ rest
      (natDecimal_head _) ?_ ?_ hrnd hrest
    · intro ch hch
      exact (digit_facts (natDecimal_all_digits _ ch hch)).2.1
    · exact rustParseF64_natDecimal _
  · rw [if_neg he] at hrepr
    have hfl : (((-e).toNat : Int)) = -e := by omega
    have hE : -(((-e).toNat : Nat) : Int) = e := by omega
    have hrnd0 : roundDec (m * ((5 ^ (-e).toNat : Nat) : Int)) e = F64.finite m e := by
      have := of_decide_eq_true hrepr
      rw [← this]
      congr 1
      push_cast
      ring
    by_cases h0 : m.natAbs * 5 ^ (-e).toNat % 10 ^ (-e).toNat = 0
    · have hdisp : f64Display (F64.finite m e) =
          (if m < 0 then ['-'] else []) ++
            natDecimal (m.natAbs * 5 ^ (-e).toNat / 10 ^ (-e).toNat) := by
        simp only [f64Display, if_neg he, if_pos h0, List.append_nil]
      rw [hdisp, List.append_assoc]
      refine number_print_core m (F64.finite m e) e (5 ^ (-e).toNat) _ rest
        (natDecimal_head _) ?_ ?_ hrnd0 hrest
      · intro ch hch
        exact (digit_facts (natDecimal_all_digits _ ch hch)).2.1
      · rw [rustParseF64_natDecimal, roundDec_div_pow _ _ h0, hE]
    · have hdisp : f64Display (F64.finite m e) =
          (if m < 0 then ['-'] else []) ++
            (natDecimal (m.natAbs * 5 ^ (-e).toNat / 10 ^ (-e).toNat) ++
              '.' :: stripZeros (padZeros (-e).toNat
                (natDecimal (m.natAbs * 5 ^ (-e).toNat % 10 ^ (-e).toNat)))) := by
        simp only [f64Display, if_neg he, if_neg h0]
      rw [hdisp, List.append_assoc]
      refine number_print_core m (F64.finite m e) e (5 ^ (-e).toNat) _ rest
        ?_ ?_ ?_ hrnd0 hrest
      · obtain ⟨c, t, hct, hcd⟩ := natDecimal_head (m.natAbs * 5 ^ (-e).toNat / 10 ^ (-e).toNat)
        exact ⟨c, t ++ '.' :: stripZeros (padZeros (-e).toNat
          (natDecimal (m.natAbs * 5 ^ (-e).toNat % 10 ^ (-e).toNat))),
          by rw [hct, List.cons_append], hcd⟩
      · intro ch hch
        rw [List.mem_append, List.mem_cons] at hch
        rcases hch with hch | hch | hch
        · exact (digit_facts (natDecimal_all_digits _ ch hch)).2.1
        · rw [hch]
          decide
        · have hdig : ch.isDigit = true :=
            padZeros_all_digits (natDecimal_all_digits _) ch (stripZeros_sub _ ch hch)
          exact (digit_facts hdig).2.1
      · rw [rustParseF64_frac _ _ h0, hE]
end RJ

namespace RJ

set_option maxRecDepth 100000

/-! ### `string` on a re-quoted benign payload -/

/-- The character loop passes benign characters through verbatim and stops at
the closing quote. -/
theorem stringLoop_benign : ∀ (s : List Char) (fuel : Nat) (rest acc : List Char),
    (∀ c ∈ s, benignChar c = true) → s.length < fuel →
    stringLoop fuel (s ++ '"' :: rest) (String.mk acc) = .ok (String.mk (acc ++ s), rest) := by
  intro s
  induction s with
  | nil =>
    intro fuel rest acc _ hfuel
    match fuel, hfuel with
    | f + 1, _ =>
      simp [stringLoop]
  | cons c t ih =>
    intro fuel rest acc hben hfuel
    match fuel, hfuel with
    | f + 1, hf =>
      obtain ⟨h1, h2, h3⟩ := benignChar_spec (hben c (by simp))
      simp only [List.cons_append, stringLoop, if_neg h1, if_neg h2, if_neg h3]
      have hpush : (String.mk acc).push c = String.mk (acc ++ [c]) := rfl
      rw [hpush, ih f rest (acc ++ [c]) (fun x hx => hben x (by simp [hx])) (by
        simp only [List.length_cons] at hf
        omega)]
      rw [List.append_assoc]
      rfl
end RJ

namespace RJ

set_option maxRecDepth 100000

theorem dropWhile_append_of_ne {p : Char → Bool} :
    ∀ (l r : List Char), l.dropWhile p ≠ [] →
    (l ++ r).dropWhile p = l.dropWhile p ++ r := by
  intro l
  induction l with
  | nil =>
    intro r h
    exact absurd rfl h
  | cons a t ih =>
    intro r h
    by_cases hp : p a = true
    · simp only [List.cons_append, List.dropWhile_cons, hp, if_true] at h ⊢
      exact ih r h
    · simp only [List.cons_append, List.dropWhile_cons, hp, if_false] at h ⊢
      rfl

theorem dropWhile_ne_nil_of_mem {p : Char → Bool} :
    ∀ {l : List Char} {x : Char}, x ∈ l → p x = false → l.dropWhile p ≠ [] := by
  intro l
  induction l with
  | nil =>
    intro x hx _
    exact absurd hx (List.not_mem_nil x)
  | cons a t ih =>
    intro x hx hpx
    by_cases hp : p a = true
    · simp only [List.dropWhile_cons, hp, if_true]
      rcases List.mem_cons.mp hx with rfl | hxt
      · rw [hpx] at hp
        exact absurd hp (by decide)
      · exact ih hxt hpx
    · simp only [List.dropWhile_cons, hp, if_false]
      exact List.cons_ne_nil a t

/-- `string` reads back a re-quoted benign payload verbatim. -/
theorem string_print (s : String) (rest : List Char) (hb : benignStr s = true) :
    string ('"' :: (s.data ++ '"' :: rest)) = .ok (s, rest) := by
  simp only [benignStr, Bool.and_eq_true, List.all_eq_true, Bool.or_eq_true] at hb
  obtain ⟨hbc, hbw⟩ := hb
  by_cases hsd : s.data = []
  · obtain ⟨data⟩ := s
    simp only at hsd
    subst hsd
    rfl
  · have key : string ('"' :: (s.data ++ '"' :: rest)) =
        (match eat_whitespace (s.data ++ '"' :: rest) with
         | '"' :: r => .ok ("", r)
         | _ => stringLoop ((s.data ++ '"' :: rest).length + 1) (s.data ++ '"' :: rest) "") :=
      rfl
    have hne : s.data.dropWhile isRustWs ≠ [] := by
      rcases hbw with hemp | hany
      · exact absurd (List.isEmpty_iff.mp hemp) hsd
      · rw [List.any_eq_true] at hany
        obtain ⟨x, hx, hxw⟩ := hany
        rw [Bool.not_eq_true'] at hxw
        exact dropWhile_ne_nil_of_mem hx hxw
    have hmid : eat_whitespace (s.data ++ '"' :: rest) =
        s.data.dropWhile isRustWs ++ '"' :: rest :=
      dropWhile_append_of_ne s.data ('"' :: rest) hne
    obtain ⟨d0, t0, hd0⟩ : ∃ d0 t0, s.data.dropWhile isRustWs = d0 :: t0 := by
      cases h : s.data.dropWhile isRustWs with
      | nil => exact absurd h hne
      | cons a b => exact ⟨a, b, rfl⟩
    have hd0mem : d0 ∈ s.data := (List.dropWhile_sublist _).mem (hd0 ▸ List.mem_cons_self ..)
    have hd0q : ¬(d0 = '"') := (benignChar_spec (hbc d0 hd0mem)).1
    rw [key, hmid, hd0, List.cons_append]
    split
    · rename_i r heq
      injection heq with h1 h2
      exact absurd h1 hd0q
    · have hsl := stringLoop_benign s.data ((s.data ++ '"' :: rest).length + 1) rest []
        hbc (by simp; omega)
      rw [List.nil_append] at hsl
      exact hsl
end RJ

namespace RJ

set_option maxRecDepth 100000

/-! ### Dispatch steps of the parser, unfolded once for each literal head -/

theorem value_null (fuel : Nat) (rest : List Char) :
    value (fuel + 1) ("null".data ++ rest) = .ok (.Null, rest) := rfl

theorem value_true (fuel : Nat) (rest : List Char) :
    value (fuel + 1) ("true".data ++ rest) = .ok (.Boolean true, rest) := rfl

theorem value_false (fuel : Nat) (rest : List Char) :
    value (fuel + 1) ("false".data ++ rest) = .ok (.Boolean false, rest) := rfl

theorem value_quote (fuel : Nat) (mid : List Char) :
    value (fuel + 1) ('"' :: mid) =
      (match string ('"' :: mid) with
       | .ok (s, r) => .ok (.String s, r)
       | .error e => .error e) := rfl

theorem value_brace (fuel : Nat) (mid : List Char) :
    value (fuel + 1) ('{' :: mid) =
      (match object fuel ('{' :: mid) with
       | .ok (obj, r) => .ok (.Object obj, r)
       | .error e => .error e) := rfl

theorem value_bracket (fuel : Nat) (mid : List Char) :
    value (fuel + 1) ('[' :: mid) =
      (match array fuel ('[' :: mid) with
       | .ok (arr, r) => .ok (.Array arr, r)
       | .error e => .error e) := rfl

theorem value_minus_disp (fuel : Nat) (mid : List Char) :
    value (fuel + 1) ('-' :: mid) =
      (match number ('-' :: mid) with
       | .ok (x, r) => .ok (.Number x, r)
       | .error e => .error e) := rfl

theorem value_digit (fuel : Nat) (c : Char) (mid : List Char) (hc : c.isDigit = true) :
    value (fuel + 1) (c :: mid) =
      (match number (c :: mid) with
       | .ok (x, r) => .ok (.Number x, r)
       | .error e => .error e) := by
  rcases digit_enum hc with rfl|rfl|rfl|rfl|rfl|rfl|rfl|rfl|rfl|rfl <;> rfl

theorem object_step (g : Nat) (cur : List Char) :
    object (g + 1) ('{' :: cur) =
      (match eat_whitespace cur with
       | '}' :: r => .ok ([], r)
       | _ => objLoop g cur []) := rfl

theorem array_step (g : Nat) (cur : List Char) :
    array (g + 1) ('[' :: cur) =
      (match eat_whitespace cur with
       | ']' :: r => .ok ([], r)
       | _ =>
         match value g cur with
         | .error e => .error e
         | .ok (v, rest) => arrLoop g rest [v]) := rfl

theorem arrLoop_comma (h : Nat) (r : List Char) (acc : List Value) :
    arrLoop (h + 1) (',' :: r) acc =
      (match value h r with
       | .error e => .error e
       | .ok (v, rest) => arrLoop h rest (acc ++ [v])) := rfl

theorem arrLoop_close (h : Nat) (r : List Char) (acc : List Value) :
    arrLoop (h + 1) (']' :: r) acc = .ok (acc, r) := rfl

theorem objLoop_step (h : Nat) (cur : List Char) (acc : List (String × Value)) :
    objLoop (h + 1) cur acc =
      (match string (eat_whitespace cur) with
       | .error e => .error e
       | .ok (key, rest) =>
         match eat_whitespace rest with
         | ':' :: cur2 =>
           (match value h cur2 with
            | .error e => .error e
            | .ok (val, rest2) =>
              match eat_whitespace rest2 with
              | ',' :: r => objLoop h r (insertKV acc key val)
              | '}' :: r => .ok (insertKV acc key val, r)
              | _ => .error .expectedCommaOrBrace)
         | _ => .error .expectedColon) := rfl

end RJ

namespace RJ

set_option maxRecDepth 100000

/-! ### Shape of the printed forms -/

/-- The input an element loop receives after one printed element, relative to
the elements still to print and the text after the array. -/
def elemsTail : List Value → List Char → List Char
  | [], rest => ']' :: rest
  | arr@(_ :: _), rest => ',' :: (displayElems arr ++ ']' :: rest)

/-- The input the member loop receives after one printed member. -/
def memsTail : List (String × Value) → List Char → List Char
  | [], rest => '}' :: rest
  | obj@(_ :: _), rest => ',' :: (displayMembers obj ++ '}' :: rest)

theorem displayElems_decomp (v : Value) (arr : List Value) (rest : List Char) :
    displayElems (v :: arr) ++ ']' :: rest = displayChars v ++ elemsTail arr rest := by
  cases arr with
  | nil => simp [displayElems, elemsTail]
  | cons w t => simp [displayElems, elemsTail, List.append_assoc]

theorem displayMembers_decomp (k : String) (v : Value) (obj : List (String × Value))
    (rest : List Char) :
    displayMembers ((k, v) :: obj) ++ '}' :: rest =
      '"' :: (k.data ++ '"' :: (':' :: (displayChars v ++ memsTail obj rest))) := by
  cases obj with
  | nil => simp [displayMembers, memsTail, List.append_assoc]
  | cons m t => simp [displayMembers, memsTail, List.append_assoc]

theorem displayChars_head (v : Value) : ∃ c t, displayChars v = c :: t ∧ isRustWs c = false ∧
    ¬(c = ',') ∧ ¬(c = ']') ∧ ¬(c = '}') := by
  cases v with
  | String s => exact ⟨'"', _, rfl, by decide, by decide, by decide, by decide⟩
  | Boolean b =>
    cases b with
    | true => exact ⟨'t', _, rfl, by decide, by decide, by decide, by decide⟩
    | false => exact ⟨'f', _, rfl, by decide, by decide, by decide, by decide⟩
  | Null => exact ⟨'n', _, rfl, by decide, by decide, by decide, by decide⟩
  | Object obj => exact ⟨'{', _, rfl, by decide, by decide, by decide, by decide⟩
  | Array arr => exact ⟨'[', _, rfl, by decide, by decide, by decide, by decide⟩
  | Number x =>
    cases x with
    | nan => exact ⟨'N', _, rfl, by decide, by decide, by decide, by decide⟩
    | inf => exact ⟨'i', _, rfl, by decide, by decide, by decide, by decide⟩
    | negInf => exact ⟨'-', _, rfl, by decide, by decide, by decide, by decide⟩
    | finite m e =>
      show ∃ c t, f64Display (.finite m e) = c :: t ∧ _
      by_cases hm : m < 0
      · obtain ⟨t, ht⟩ : ∃ t, f64Display (.finite m e) = '-' :: t := by
          simp only [f64Display, if_pos hm, List.singleton_append]
          exact ⟨_, rfl⟩
        exact ⟨'-', t, ht, by decide, by decide, by decide, by decide⟩
      · simp only [f64Display, if_neg hm, List.nil_append]
        by_cases he : (0 : Int) ≤ e
        · rw [if_pos he]
          obtain ⟨c, t, hct, hcd⟩ := natDecimal_head (m.natAbs * 2 ^ e.toNat)
          obtain ⟨hws, -, -, -, -, -, -, -, -, -, h1, h2, h3, -, -⟩ := digit_facts hcd
          exact ⟨c, t, hct, hws, h1, h2, h3⟩
        · rw [if_neg he]
          obtain ⟨c, t, hct, hcd⟩ :=
            natDecimal_head (m.natAbs * 5 ^ (-e).toNat / 10 ^ (-e).toNat)
          obtain ⟨hws, -, -, -, -, -, -, -, -, -, h1, h2, h3, -, -⟩ := digit_facts hcd
          exact ⟨c, _, by rw [hct, List.cons_append], hws, h1, h2, h3⟩

theorem displayMembers_quote (k : String) (v : Value) (obj : List (String × Value)) :
    ∃ t, displayMembers ((k, v) :: obj) = '"' :: t := by
  cases obj with
  | nil => exact ⟨_, rfl⟩
  | cons m t => exact ⟨_, rfl⟩

theorem elemsTail_delimOk (arr : List Value) (rest : List Char) :
    delimOk (elemsTail arr rest) = true := by
  cases arr <;> simp [elemsTail, delimOk]

theorem memsTail_delimOk (obj : List (String × Value)) (rest : List Char) :
    delimOk (memsTail obj rest) = true := by
  cases obj <;> simp [memsTail, delimOk]

theorem delimOk_not_numChar {rest : List Char} (h : delimOk rest = true) :
    rest = [] ∨ ∃ c t, rest = c :: t ∧ numChar c = false := by
  cases rest with
  | nil => exact Or.inl rfl
  | cons c t =>
    refine Or.inr ⟨c, t, rfl, ?_⟩
    simp only [delimOk, Bool.or_eq_true, decide_eq_true_eq] at h
    rcases h with rfl | rfl | rfl <;> decide

/-! ### Insertion under fresh keys -/

theorem insertKV_append (acc : List (String × Value)) (k : String) (v : Value)
    (h : ∀ p ∈ acc, ¬(p.1 = k)) : insertKV acc k v = acc ++ [(k, v)] := by
  induction acc with
  | nil => rfl
  | cons p rest ih =>
    obtain ⟨k0, v0⟩ := p
    simp only [insertKV]
    rw [if_neg (h (k0, v0) (by simp))]
    rw [ih (fun q hq => h q (by simp [hq]))]
    rfl

theorem uniqueKeys_cons {k : String} {ks : List String} (h : uniqueKeys (k :: ks) = true) :
    uniqueKeys ks = true ∧ ∀ k2 ∈ ks, ¬(k2 = k) := by
  simp only [uniqueKeys, Bool.and_eq_true, Bool.not_eq_true'] at h
  obtain ⟨h1, h2⟩ := h
  refine ⟨h2, ?_⟩
  intro k2 hk2 heq
  rw [List.any_eq_false] at h1
  have := h1 k2 hk2
  simp [heq] at this

end RJ

namespace RJ
set_option maxRecDepth 100000

theorem objLoop_run_comma (h : Nat) (cur cur2 rest2 r : List Char)
    (acc : List (String × Value)) (key : String) (val : Value)
    (hs : string (eat_whitespace cur) = .ok (key, ':' :: cur2))
    (hv : value h cur2 = .ok (val, rest2))
    (ht : eat_whitespace rest2 = ',' :: r) :
    objLoop (h + 1) cur acc = objLoop h r (insertKV acc key val) := by
  rw [objLoop_step, hs]
  show (match value h cur2 with
    | .error e => .error e
    | .ok (val, rest2) =>
      match eat_whitespace rest2 with
      | ',' :: r => objLoop h r (insertKV acc key val)
      | '}' :: r => .ok (insertKV acc key val, r)
      | _ => .error .expectedCommaOrBrace) = objLoop h r (insertKV acc key val)
  rw [hv]
  show (match eat_whitespace rest2 with
    | ',' :: r => objLoop h r (insertKV acc key val)
    | '}' :: r => .ok (insertKV acc key val, r)
    | _ => .error .expectedCommaOrBrace) = objLoop h r (insertKV acc key val)
  rw [ht]
  rfl

theorem objLoop_run_brace (h : Nat) (cur cur2 rest2 r : List Char)
    (acc : List (String × Value)) (key : String) (val : Value)
    (hs : string (eat_whitespace cur) = .ok (key, ':' :: cur2))
    (hv : value h cur2 = .ok (val, rest2))
    (ht : eat_whitespace rest2 = '}' :: r) :
    objLoop (h + 1) cur acc = Except.ok (insertKV acc key val, r) := by
  rw [objLoop_step, hs]
  show (match value h cur2 with
    | .error e => .error e
    | .ok (val, rest2) =>
      match eat_whitespace rest2 with
      | ',' :: r => objLoop h r (insertKV acc key val)
      | '}' :: r => .ok (insertKV acc key val, r)
      | _ => .error .expectedCommaOrBrace) = Except.ok (insertKV acc key val, r)
  rw [hv]
  show (match eat_whitespace rest2 with
    | ',' :: r => objLoop h r (insertKV acc key val)
    | '}' :: r => .ok (insertKV acc key val, r)
    | _ => .error .expectedCommaOrBrace) = Except.ok (insertKV acc key val, r)
  rw [ht]
  rfl
end RJ

namespace RJ

set_option maxRecDepth 100000

/-! ### The compact round trip on benign trees -/

mutual
theorem rt_value : ∀ (v : Value) (fuel : Nat) (rest : List Char),
    benignV v = true → delimOk rest = true →
    2 * (displayChars v ++ rest).length + 3 ≤ fuel →
    value fuel (displayChars v ++ rest) = .ok (v, rest)
  | .Null, fuel, rest, _, _, hfuel => by
    obtain ⟨f, rfl⟩ : ∃ f, fuel = f + 1 := ⟨fuel - 1, by omega⟩
    exact value_null f rest
  | .Boolean true, fuel, rest, _, _, hfuel => by
    obtain ⟨f, rfl⟩ : ∃ f, fuel = f + 1 := ⟨fuel - 1, by omega⟩
    exact value_true f rest
  | .Boolean false, fuel, rest, _, _, hfuel => by
    obtain ⟨f, rfl⟩ : ∃ f, fuel = f + 1 := ⟨fuel - 1, by omega⟩
    exact value_false f rest
  | .String s, fuel, rest, hben, _, hfuel => by
    obtain ⟨f, rfl⟩ : ∃ f, fuel = f + 1 := ⟨fuel - 1, by omega⟩
    have hshape : displayChars (.String s) ++ rest = '"' :: (s.data ++ '"' :: rest) := by
      show '"' :: (s.data ++ ['"']) ++ rest = _
      simp [List.append_assoc]
    rw [hshape, value_quote, string_print s rest hben]
  | .Number x, fuel, rest, hben, hrest, hfuel => by
    obtain ⟨f, rfl⟩ : ∃ f, fuel = f + 1 := ⟨fuel - 1, by omega⟩
    have hrepr : reprOk x = true := hben
    cases x with
    | finite m e =>
      have hnum := number_print m e rest hrepr (delimOk_not_numChar hrest)
      by_cases hm : m < 0
      · obtain ⟨mid, hd⟩ : ∃ mid, f64Display (F64.finite m e) = '-' :: mid := by
          simp only [f64Display, if_pos hm, List.singleton_append]
          exact ⟨_, rfl⟩
        have hshape : f64Display (F64.finite m e) ++ rest = '-' :: (mid ++ rest) := by
          rw [hd, List.cons_append]
        show value (f + 1) (f64Display (F64.finite m e) ++ rest) = _
        rw [hshape, value_minus_disp]
        rw [hshape] at hnum
        rw [hnum]
      · obtain ⟨c, t, hct, hcd⟩ :
            ∃ c t, f64Display (F64.finite m e) = c :: t ∧ c.isDigit = true := by
          simp only [f64Display, if_neg hm, List.nil_append]
          by_cases he : (0 : Int) ≤ e
          · rw [if_pos he]
            exact natDecimal_head _
          · rw [if_neg he]
            obtain ⟨c, t, hct, hcd⟩ :=
              natDecimal_head (m.natAbs * 5 ^ (-e).toNat / 10 ^ (-e).toNat)
            exact ⟨c, _, by rw [hct, List.cons_append], hcd⟩
        have hshape : f64Display (F64.finite m e) ++ rest = c :: (t ++ rest) := by
          rw [hct, List.cons_append]
        show value (f + 1) (f64Display (F64.finite m e) ++ rest) = _
        rw [hshape, value_digit f c _ hcd]
        rw [hshape] at hnum
        rw [hnum]
    | inf => exact absurd hrepr (by decide)
    | negInf => exact absurd hrepr (by decide)
    | nan => exact absurd hrepr (by decide)
  | .Array [], fuel, rest, _, _, hfuel => by
    obtain ⟨f, rfl⟩ : ∃ f, fuel = f + 1 := ⟨fuel - 1, by omega⟩
    have hshape : displayChars (.Array []) ++ rest =
        '[' :: (displayElems [] ++ ']' :: rest) := by
      show '[' :: (displayElems [] ++ [']']) ++ rest = _
      simp [List.append_assoc]
    have harr : array f ('[' :: (displayElems [] ++ ']' :: rest)) = .ok ([], rest) := by
      obtain ⟨g, rfl⟩ : ∃ g, f = g + 1 := ⟨f - 1, by omega⟩
      rfl
    rw [hshape, value_bracket, harr]
  | .Array (v :: t), fuel, rest, hben, hrest, hfuel => by
    obtain ⟨f, rfl⟩ : ∃ f, fuel = f + 1 := ⟨fuel - 1, by omega⟩
    have hshape : displayChars (.Array (v :: t)) ++ rest =
        '[' :: (displayElems (v :: t) ++ ']' :: rest) := by
      show '[' :: (displayElems (v :: t) ++ [']']) ++ rest = _
      simp [List.append_assoc]
    have hlenA : (displayChars (.Array (v :: t))).length =
        (displayElems (v :: t)).length + 2 := by
      show ('[' :: (displayElems (v :: t) ++ [']'])).length = _
      simp
    have harr : array f ('[' :: (displayElems (v :: t) ++ ']' :: rest)) =
        .ok (v :: t, rest) := by
      simp only [List.length_append] at hfuel
      obtain ⟨g, rfl⟩ : ∃ g, f = g + 1 := ⟨f - 1, by omega⟩
      have hb2 : (benignV v && benignElems t) = true := hben
      rw [Bool.and_eq_true] at hb2
      obtain ⟨hbv, hbt⟩ := hb2
      rw [array_step, displayElems_decomp v t rest]
      obtain ⟨c0, t0, hct, hcw, -, hc1, -⟩ := displayChars_head v
      have hcur : displayChars v ++ elemsTail t rest = c0 :: (t0 ++ elemsTail t rest) := by
        rw [hct, List.cons_append]
      rw [hcur]
      rw [show eat_whitespace (c0 :: (t0 ++ elemsTail t rest)) =
        c0 :: (t0 ++ elemsTail t rest) from eat_ws_cons _ hcw]
      split
      · rename_i r heq
        injection heq with hh1 hh2
        exact absurd hh1 hc1
      · rw [← hcur]
        have hlen := congrArg List.length (displayElems_decomp v t rest)
        have hvlen : 1 ≤ (displayChars v).length := by
          rw [hct]
          simp
        simp only [List.length_append, List.length_cons] at hlen hfuel hlenA
        rw [rt_value v g (elemsTail t rest) hbv (elemsTail_delimOk t rest)
          (by simp only [List.length_append]; omega)]
        exact rt_arrLoop t [v] g rest hbt hrest (by omega)
    rw [hshape, value_bracket, harr]
  | .Object [], fuel, rest, _, _, hfuel => by
    obtain ⟨f, rfl⟩ : ∃ f, fuel = f + 1 := ⟨fuel - 1, by omega⟩
    have hshape : displayChars (.Object []) ++ rest =
        '{' :: (displayMembers [] ++ '}' :: rest) := by
      show '{' :: (displayMembers [] ++ ['}']) ++ rest = _
      simp [List.append_assoc]
    have hobj : object f ('{' :: (displayMembers [] ++ '}' :: rest)) = .ok ([], rest) := by
      obtain ⟨g, rfl⟩ : ∃ g, f = g + 1 := ⟨f - 1, by omega⟩
      rfl
    rw [hshape, value_brace, hobj]
  | .Object ((k, v) :: t), fuel, rest, hben, hrest, hfuel => by
    obtain ⟨f, rfl⟩ : ∃ f, fuel = f + 1 := ⟨fuel - 1, by omega⟩
    have hb2 : (uniqueKeys (((k, v) :: t).map Prod.fst) && benignMems ((k, v) :: t)) = true :=
      hben
    rw [Bool.and_eq_true] at hb2
    obtain ⟨hu, hbm⟩ := hb2
    have hshape : displayChars (.Object ((k, v) :: t)) ++ rest =
        '{' :: (displayMembers ((k, v) :: t) ++ '}' :: rest) := by
      show '{' :: (displayMembers ((k, v) :: t) ++ ['}']) ++ rest = _
      simp [List.append_assoc]
    have hlenO : (displayChars (.Object ((k, v) :: t))).length =
        (displayMembers ((k, v) :: t)).length + 2 := by
      show ('{' :: (displayMembers ((k, v) :: t) ++ ['}'])).length = _
      simp
    have hobj : object f ('{' :: (displayMembers ((k, v) :: t) ++ '}' :: rest)) =
        .ok ((k, v) :: t, rest) := by
      simp only [List.length_append] at hfuel
      obtain ⟨g, rfl⟩ : ∃ g, f = g + 1 := ⟨f - 1, by omega⟩
      rw [object_step]
      obtain ⟨t2, ht2⟩ := displayMembers_quote k v t
      have hcur : displayMembers ((k, v) :: t) ++ '}' :: rest =
          '"' :: (t2 ++ '}' :: rest) := by
        rw [ht2, List.cons_append]
      rw [hcur]
      rw [show eat_whitespace ('"' :: (t2 ++ '}' :: rest)) =
        '"' :: (t2 ++ '}' :: rest) from rfl]
      show objLoop g ('"' :: (t2 ++ '}' :: rest)) [] = .ok ((k, v) :: t, rest)
      rw [← hcur]
      have hrec := rt_objLoop ((k, v) :: t) [] g rest (by simp) hbm hu
        (fun s _ p hp => absurd hp (List.not_mem_nil p)) hrest
        (by simp only [List.length_append, List.length_cons] at hfuel hlenO ⊢; omega)
      exact hrec
    rw [hshape, value_brace, hobj]
termination_by v _ _ _ _ _ => sizeOf v
decreasing_by
all_goals simp_wf
all_goals omega

theorem rt_arrLoop : ∀ (arr acc : List Value) (fuel : Nat) (rest : List Char),
    benignElems arr = true → delimOk rest = true →
    2 * (elemsTail arr rest).length + 2 ≤ fuel →
    arrLoop fuel (elemsTail arr rest) acc = .ok (acc ++ arr, rest)
  | [], acc, fuel, rest, _, _, hfuel => by
    obtain ⟨h, rfl⟩ : ∃ h, fuel = h + 1 := ⟨fuel - 1, by omega⟩
    have het : elemsTail [] rest = ']' :: rest := rfl
    rw [het, arrLoop_close, List.append_nil]
  | v :: t, acc, fuel, rest, hben, hrest, hfuel => by
    have hb2 : (benignV v && benignElems t) = true := hben
    rw [Bool.and_eq_true] at hb2
    obtain ⟨hbv, hbt⟩ := hb2
    obtain ⟨h, rfl⟩ : ∃ h, fuel = h + 1 := ⟨fuel - 1, by omega⟩
    have het : elemsTail (v :: t) rest = ',' :: (displayElems (v :: t) ++ ']' :: rest) := rfl
    rw [het] at hfuel ⊢
    rw [arrLoop_comma, displayElems_decomp v t rest]
    have hlen := congrArg List.length (displayElems_decomp v t rest)
    obtain ⟨c0, t0, hct, -, -, -, -⟩ := displayChars_head v
    have hvlen : 1 ≤ (displayChars v).length := by
      rw [hct]
      simp
    simp only [List.length_append, List.length_cons] at hlen hfuel
    rw [rt_value v h (elemsTail t rest) hbv (elemsTail_delimOk t rest)
      (by simp only [List.length_append]; omega)]
    have hrec := rt_arrLoop t (acc ++ [v]) h rest hbt hrest (by omega)
    rw [List.append_assoc] at hrec
    exact hrec
termination_by arr _ _ _ _ _ _ => sizeOf arr
decreasing_by
all_goals simp_wf
all_goals omega

theorem rt_objLoop : ∀ (obj acc : List (String × Value)) (fuel : Nat) (rest : List Char),
    obj ≠ [] → benignMems obj = true → uniqueKeys (obj.map Prod.fst) = true →
    (∀ s ∈ obj.map Prod.fst, ∀ p ∈ acc, ¬(p.1 = s)) →
    delimOk rest = true →
    2 * (displayMembers obj ++ '}' :: rest).length + 2 ≤ fuel →
    objLoop fuel (displayMembers obj ++ '}' :: rest) acc = .ok (acc ++ obj, rest)
  | [], _, _, _, hne, _, _, _, _, _ => absurd rfl hne
  | [(k, v)], acc, fuel, rest, _, hbm, hu, hdisj, hrest, hfuel => by
    have hb2 : (benignStr k && benignV v && benignMems []) = true := hbm
    rw [Bool.and_eq_true, Bool.and_eq_true] at hb2
    obtain ⟨⟨hbk, hbv⟩, hbt⟩ := hb2
    obtain ⟨h, rfl⟩ : ∃ h, fuel = h + 1 := ⟨fuel - 1, by omega⟩
    rw [displayMembers_decomp k v [] rest]
    have hlen := congrArg List.length (displayMembers_decomp k v [] rest)
    simp only [List.length_append, List.length_cons] at hlen hfuel
    have hs : string (eat_whitespace ('"' :: (k.data ++ '"' ::
        (':' :: (displayChars v ++ memsTail [] rest))))) =
        .ok (k, ':' :: (displayChars v ++ memsTail [] rest)) :=
      string_print k (':' :: (displayChars v ++ memsTail [] rest)) hbk
    have hv : value h (displayChars v ++ memsTail [] rest) = .ok (v, memsTail [] rest) :=
      rt_value v h (memsTail [] rest) hbv (memsTail_delimOk [] rest)
        (by simp only [List.length_append]; omega)
    have hins : insertKV acc k v = acc ++ [(k, v)] :=
      insertKV_append acc k v (fun p hp => hdisj k (by simp) p hp)
    have ht : eat_whitespace (memsTail ([] : List (String × Value)) rest) = '}' :: rest :=
      rfl
    rw [objLoop_run_brace _ _ _ _ _ _ _ _ hs hv ht, hins]
  | (k, v) :: m :: t2, acc, fuel, rest, _, hbm, hu, hdisj, hrest, hfuel => by
    have hb2 : (benignStr k && benignV v && benignMems (m :: t2)) = true := hbm
    rw [Bool.and_eq_true, Bool.and_eq_true] at hb2
    obtain ⟨⟨hbk, hbv⟩, hbt⟩ := hb2
    obtain ⟨h, rfl⟩ : ∃ h, fuel = h + 1 := ⟨fuel - 1, by omega⟩
    rw [displayMembers_decomp k v (m :: t2) rest]
    have hlen := congrArg List.length (displayMembers_decomp k v (m :: t2) rest)
    simp only [List.length_append, List.length_cons] at hlen hfuel
    have hs : string (eat_whitespace ('"' :: (k.data ++ '"' ::
        (':' :: (displayChars v ++ memsTail (m :: t2) rest))))) =
        .ok (k, ':' :: (displayChars v ++ memsTail (m :: t2) rest)) :=
      string_print k (':' :: (displayChars v ++ memsTail (m :: t2) rest)) hbk
    have hv : value h (displayChars v ++ memsTail (m :: t2) rest) =
        .ok (v, memsTail (m :: t2) rest) :=
      rt_value v h (memsTail (m :: t2) rest) hbv (memsTail_delimOk (m :: t2) rest)
        (by simp only [List.length_append]; omega)
    have hins : insertKV acc k v = acc ++ [(k, v)] :=
      insertKV_append acc k v (fun p hp => hdisj k (by simp) p hp)
    have ht : eat_whitespace (memsTail (m :: t2) rest) =
        ',' :: (displayMembers (m :: t2) ++ '}' :: rest) := rfl
    rw [objLoop_run_comma _ _ _ _ _ _ _ _ hs hv ht, hins]
    obtain ⟨hu2, hfresh⟩ := uniqueKeys_cons hu
    have hdisj2 : ∀ s ∈ (m :: t2).map Prod.fst, ∀ p ∈ acc ++ [(k, v)], ¬(p.1 = s) := by
      intro s hsm p hp heq
      rcases List.mem_append.mp hp with hpa | hpk
      · exact hdisj s (List.mem_cons_of_mem _ hsm) p hpa heq
      · have hpk2 : p = (k, v) := by simpa using hpk
        rw [hpk2] at heq
        exact hfresh s hsm heq.symm
    have hlmt : (memsTail (m :: t2) rest).length =
        (displayMembers (m :: t2)).length + rest.length + 2 := by
      simp only [memsTail, List.length_cons, List.length_append]
      omega
    have hrec := rt_objLoop (m :: t2) (acc ++ [(k, v)]) h rest (by simp) hbt hu2 hdisj2
      hrest (by simp only [List.length_append, List.length_cons]; omega)
    rw [List.append_assoc] at hrec
    exact hrec
termination_by obj _ _ _ _ _ _ _ _ _ => sizeOf obj
decreasing_by
all_goals simp_wf
all_goals omega
end

end RJ

namespace RJ

set_option maxRecDepth 100000

/-! ### `PartialEq` reflexivity on benign trees -/

theorem getKV_unique : ∀ (a : List (String × Value)) (k : String) (v : Value),
    uniqueKeys (a.map Prod.fst) = true → (k, v) ∈ a → getKV a k = some v := by
  intro a
  induction a with
  | nil =>
    intro k v _ hm
    exact absurd hm (List.not_mem_nil _)
  | cons p rest ih =>
    intro k v hu hm
    obtain ⟨k0, v0⟩ := p
    obtain ⟨hu2, hfresh⟩ :=
      uniqueKeys_cons (show uniqueKeys (k0 :: rest.map Prod.fst) = true from hu)
    rcases List.mem_cons.mp hm with heq | hmem
    · rw [Prod.mk.injEq] at heq
      obtain ⟨rfl, rfl⟩ := heq
      simp [getKV]
    · have hk : k ∈ rest.map Prod.fst := List.mem_map.mpr ⟨(k, v), hmem, rfl⟩
      have hne : ¬(k = k0) := hfresh k hk
      simp only [getKV]
      rw [if_neg (fun h => hne h.symm)]
      exact ih k v hu2 hmem

mutual
theorem benign_valueEq_refl : ∀ (v : Value), benignV v = true → valueEq v v = true
  | .String s, _ => by simp [valueEq]
  | .Number x, h => by
    cases x with
    | finite m e => simp [valueEq, f64Eq]
    | inf => exact absurd h (by decide)
    | negInf => exact absurd h (by decide)
    | nan => exact absurd h (by decide)
  | .Boolean b, _ => by simp [valueEq]
  | .Null, _ => rfl
  | .Object obj, h => by
    have hb2 : (uniqueKeys (obj.map Prod.fst) && benignMems obj) = true := h
    rw [Bool.and_eq_true] at hb2
    obtain ⟨hu, hbm⟩ := hb2
    have hmems := benign_memsIncl obj obj hu hbm (fun p hp => hp)
    simp [valueEq, hmems]
  | .Array arr, h => by
    have he := benign_elemsEq arr h
    simp [valueEq, he]
termination_by v _ => sizeOf v

theorem benign_memsIncl : ∀ (a b : List (String × Value)),
    uniqueKeys (b.map Prod.fst) = true → benignMems a = true →
    (∀ p ∈ a, p ∈ b) → memsIncl a b = true
  | [], _, _, _, _ => rfl
  | (k, v) :: rest, b, hu, hbm, hsub => by
    have hb2 : (benignStr k && benignV v && benignMems rest) = true := hbm
    rw [Bool.and_eq_true, Bool.and_eq_true] at hb2
    obtain ⟨⟨hbk, hbv⟩, hbt⟩ := hb2
    have hget : getKV b k = some v := getKV_unique b k v hu (hsub (k, v) (by simp))
    have hrec := benign_memsIncl rest b hu hbt (fun p hp => hsub p (by simp [hp]))
    have hveq := benign_valueEq_refl v hbv
    simp only [memsIncl, hget, hveq, hrec, Bool.and_self]
termination_by a _ _ _ _ => sizeOf a

theorem benign_elemsEq : ∀ (arr : List Value), benignElems arr = true → elemsEq arr arr = true
  | [], _ => rfl
  | v :: t, h => by
    have hb2 : (benignV v && benignElems t) = true := h
    rw [Bool.and_eq_true] at hb2
    obtain ⟨hbv, hbt⟩ := hb2
    have h1 := benign_valueEq_refl v hbv
    have h2 := benign_elemsEq t hbt
    simp only [elemsEq, h1, h2, Bool.and_self]
termination_by arr _ => sizeOf arr
end

end RJ

namespace RJ

set_option maxRecDepth 100000

/-! ### C5, amended -/

/-- C5 as amended: the claimed classes are narrowed to the values the compact
serializer can actually reproduce — trees whose strings (keys included) contain
no quote, backslash or control character and are not nonempty all-whitespace,
whose object keys are distinct, and whose numbers are finite doubles exactly
equal to their own decimal expansion (`benignV`). For every input text that
parses to such a tree, re-parsing the compact serialization succeeds with the
same tree, and the two parses are structurally equal in the `PartialEq` sense
(`valueEq`). Outside these classes the round trip genuinely fails: see the
counterexample with a quoted quote and with an overflowing numeral. -/
theorem c5_round_trip (s : List Char) (v : Value)
    (hparse : parse s = .ok v) (hben : benignV v = true) :
    parse (displayChars v) = .ok v ∧ valueEq v v = true := by
  constructor
  · have h := rt_value v (2 * (displayChars v).length + 4) [] hben rfl
      (by rw [List.append_nil]; omega)
    rw [List.append_nil] at h
    simp only [parse]
    rw [h]
    rfl
  · exact benign_valueEq_refl v hben

/-- Witness for `c5_round_trip` on a single-key object holding an array with a
number, a boolean, null and a string. -/
theorem c5_round_trip_witness :
    parse "\x7b\"a\":[1.5,true,null,\"x\"]\x7d".data =
      .ok (.Object [("a", .Array
        [.Number (.finite 3 (-1)), .Boolean true, .Null, .String "x"])]) ∧
    benignV (.Object [("a", .Array
      [.Number (.finite 3 (-1)), .Boolean true, .Null, .String "x"])]) = true ∧
    parse (displayChars (.Object [("a", .Array
      [.Number (.finite 3 (-1)), .Boolean true, .Null, .String "x"])])) =
      .ok (.Object [("a", .Array
        [.Number (.finite 3 (-1)), .Boolean true, .Null, .String "x"])]) ∧
    valueEq
      (.Object [("a", .Array [.Number (.finite 3 (-1)), .Boolean true, .Null, .String "x"])])
      (.Object [("a", .Array [.Number (.finite 3 (-1)), .Boolean true, .Null, .String "x"])])
      = true := by
  refine ⟨rfl, rfl, ?_, ?_⟩
  · exact (c5_round_trip "\x7b\"a\":[1.5,true,null,\"x\"]\x7d".data _ rfl rfl).1
  · exact (c5_round_trip "\x7b\"a\":[1.5,true,null,\"x\"]\x7d".data _ rfl rfl).2

end RJ
